import Mathlib

/-!
# selpg: page selection from a text stream

A shallow embedding of `main.go`: the flag-backed configuration, `parseArgs`
and the read/classify/write loop of `readAndPrint`, followed by theorems about
them.

The loop is given twice.  `iteration` and `loop` take `writer.Write` as a call
that returns `nil` or an error, which is all the control flow depends on.
`iterationB`, `loopB` and `readAndPrintB` carry the `bufio.Writer` of the code
and the sink under it, with the deferred `Flush`, and say what reaches the
sink; over a sink that takes every write the two agree
(`readAndPrintB_okSink`).

Go's `int` is modelled by `Int`.  The only arithmetic on it is `pages++` and
`lines++`, each executed at most once per segment read, so no counter can
exceed the number of segments by more than one and wrap-around plays no role.
-/

namespace Selpg

/-- One byte of the input or output stream. -/
abbrev Byte := UInt8

/-- The form-feed byte, written `'\f'` in the source. -/
def formFeed : Byte := 12

/-- The newline byte, written `'\n'` in the source. -/
def newline : Byte := 10

/-- Values of Go's `error` interface that the loop can see, `nil` apart: the
sentinel `io.EOF`, or any other error (identified by its message). -/
inductive Err where
  | EOF : Err
  | other (msg : String) : Err
  deriving DecidableEq, Repr

/-- The package-level flag variables `*startPage`, `*endPage`, `*pageLen` and
`*pageBreak`, as they stand after `flag.Parse()`. -/
structure Flags where
  startPage : Int
  endPage : Int
  pageLen : Int
  pageBreak : Bool
  deriving DecidableEq, Repr

/-- The global `pageType` as `parseArgs` sets it (lines 31 to 35). -/
def pageType (c : Flags) : String :=
  if c.pageBreak then "f" else "l"

/-- How a call of `parseArgs` ends: it returns `nil`, it returns an error, or
the process is terminated by `os.Exit` before it returns. -/
inductive ParseOutcome where
  | nil : ParseOutcome
  | error (msg : String) : ParseOutcome
  | exit (code : Nat) : ParseOutcome
  deriving DecidableEq, Repr

/-- The function `printUsage` (lines 129 to 133): after printing it calls
`os.Exit(2)`, so it never returns to its caller. -/
def printUsage : ParseOutcome :=
  ParseOutcome.exit 2

/-- The function `parseArgs` (lines 28 to 59) on the parsed flag values. -/
def parseArgs (c : Flags) : ParseOutcome :=
  if c.startPage = -1 ∨ c.endPage = -1 then
    printUsage
  else if c.startPage ≤ 0 ∨ c.endPage ≤ 0 then
    ParseOutcome.error "page number can not be negative"
  else if c.startPage > c.endPage then
    ParseOutcome.error "start page cannot be greater than end page"
  else if pageType c = "l" ∧ c.pageLen ≤ 0 then
    ParseOutcome.error "line number can not be negative"
  else if pageType c = "f" ∧ c.pageLen ≠ 72 then
    ParseOutcome.error "-f and -lNumber cannot be set at the same time"
  else
    ParseOutcome.nil

/-- The local `pageSpliter` of `readAndPrint` (lines 93 to 98). -/
def pageSpliter (c : Flags) : Byte :=
  if pageType c = "f" then formFeed else newline

/-- What one call `reader.ReadBytes(pageSpliter)` returns: the bytes `sub` and
the error `err` (`none` is Go's `nil`). -/
structure ReadResult where
  sub : List Byte
  err : Option Err
  deriving DecidableEq, Repr

/-- The results of the successive calls `ReadBytes(delim)` on an error-free
stream that holds exactly the bytes `input`: each call returns the bytes up to
and including the next `delim` with a `nil` error, and the call that meets the
end of the stream first returns the bytes left over together with `io.EOF`. -/
def reads (delim : Byte) : List Byte → List ReadResult
  | [] => [⟨[], some Err.EOF⟩]
  | b :: bs =>
    if b = delim then ⟨[b], none⟩ :: reads delim bs
    else
      match reads delim bs with
      | r :: rs => ⟨b :: r.sub, r.err⟩ :: rs
      | [] => [⟨[b], some Err.EOF⟩]

/-- The call `writer.Write(sub)` as the loop sees it: given the segments that
earlier calls have accepted and the next segment, the call returns `nil`
(`none`) or an error; the loop discards the byte count.  This says nothing of
where the bytes are: the buffer behind `writer` and the sink under it are
modelled by `BufWriter` and `Sink` below. -/
abbrev Writer := List (List Byte) → List Byte → Option Err

/-- A writer whose `Write` never returns an error. -/
def okWriter : Writer := fun _ _ => none

/-- The mutable state of the loop of `readAndPrint`: the counters `pages` and
`lines` of the source, and two records kept for the theorems: the segments for
which `writer.Write` has returned `nil`, in order, and the number of
`ReadBytes` calls made. -/
structure State where
  pages : Int
  lines : Int
  written : List (List Byte)
  nreads : Nat
  deriving DecidableEq, Repr

/-- The state at line 100: `pages, lines := 1, 0`, nothing read or written. -/
def State.init : State := ⟨1, 0, [], 0⟩

/-- The effect of one pass through the loop body: go round again, or leave the
loop and return `ret` from `readAndPrint`. -/
inductive Step where
  | next (s : State) : Step
  | stop (s : State) (ret : Option Err) : Step
  deriving DecidableEq, Repr

/-- Lines 108 to 116: the page counter is advanced for the segment read. -/
def advance (c : Flags) (s : State) : State :=
  if pageType c = "f" then
    { s with pages := s.pages + 1 }
  else if s.lines + 1 > c.pageLen then
    { s with lines := 1, pages := s.pages + 1 }
  else
    { s with lines := s.lines + 1 }

/-- One pass through the loop body (lines 102 to 123), the read having returned
`r`. -/
def iteration (c : Flags) (w : Writer) (s : State) (r : ReadResult) : Step :=
  let s := { s with nreads := s.nreads + 1 }
  if r.err = some Err.EOF then
    Step.stop s none
  else if r.err ≠ none then
    Step.stop s r.err
  else
    let s := advance c s
    if s.pages ≥ c.startPage ∧ s.pages ≤ c.endPage then
      match w s.written r.sub with
      | some e => Step.stop s (some e)
      | none => Step.next { s with written := s.written ++ [r.sub] }
    else
      Step.stop s none

/-- The loop of `readAndPrint` (lines 101 to 126) against a source whose
successive reads return the results listed; a read past the end of the list
returns no bytes and `io.EOF`, as a drained reader does.  The result is the
final state and the value `readAndPrint` returns. -/
def loop (c : Flags) (w : Writer) : State → List ReadResult → State × Option Err
  | s, [] =>
    match iteration c w s ⟨[], some Err.EOF⟩ with
    | Step.next s1 => (s1, none)
    | Step.stop s1 ret => (s1, ret)
  | s, r :: rs =>
    match iteration c w s r with
    | Step.next s1 => loop c w s1 rs
    | Step.stop s1 ret => (s1, ret)

/-- The function `readAndPrint` from line 100 on, with the reader and writer
already open. -/
def readAndPrint (c : Flags) (w : Writer) (src : List ReadResult) : State × Option Err :=
  loop c w State.init src

/-- The run of `readAndPrint` on an error-free stream holding `input`, with a
writer whose `Write` never fails. -/
def run (c : Flags) (input : List Byte) : State × Option Err :=
  readAndPrint c okWriter (reads (pageSpliter c) input)

/-- The bytes that `writer.Write` has accepted in the run on `input`.  When the
sink takes every write these are the bytes it holds once the deferred `Flush`
has run (`readAndPrintB_okSink`). -/
def output (c : Flags) (input : List Byte) : List Byte :=
  (run c input).1.written.flatten

/-- The state the loop reaches by going round once for each result of `pre`,
when none of these passes leaves the loop. -/
def passes (c : Flags) (w : Writer) : State → List ReadResult → Option State
  | s, [] => some s
  | s, r :: rs =>
    match iteration c w s r with
    | Step.next s1 => passes c w s1 rs
    | Step.stop _ _ => none

/-- The input cut after its last occurrence of the byte `d`; empty when `d`
does not occur. -/
def truncateAfterLast (d : Byte) : List Byte → List Byte
  | [] => []
  | b :: bs => if d ∈ b :: bs then b :: truncateAfterLast d bs else []

/-- The stream made of the lines `ls`, each followed by the byte `d`. -/
def joinWith (d : Byte) (ls : List (List Byte)) : List Byte :=
  (ls.map (fun l => l ++ [d])).flatten

/-- The condition under which `parseArgs` accepts the flags. -/
def Accepted (c : Flags) : Prop :=
  c.startPage ≥ 1 ∧ c.endPage ≥ c.startPage ∧
    ((c.pageBreak = false ∧ c.pageLen ≥ 1) ∨ (c.pageBreak = true ∧ c.pageLen = 72))

/-- The value of `pages` once `i` lines have gone through the counter with
`n` lines to a page: 1 at the start, then one more than the number of full
pages before line `i`. -/
def pageAfter (n : Nat) : Nat → Nat
  | 0 => 1
  | j + 1 => j / n + 1

/-- The value of `lines` once `i` lines have gone through the counter with
`n` lines to a page: 0 at the start, then the place of line `i` on its page. -/
def lineAfter (n : Nat) : Nat → Nat
  | 0 => 0
  | j + 1 => j % n + 1

/-- The loop state after `i` lines under the line-count policy, `wr` being the
segments written and `rd` the reads made. -/
def lineState (n i : Nat) (wr : List (List Byte)) (rd : Nat) : State :=
  ⟨(pageAfter n i : Nat), (lineAfter n i : Nat), wr, rd⟩

/-- A writer whose `Write` accepts `k` segments and fails on every later one. -/
def failAfter (k : Nat) : Writer :=
  fun accepted _ => if accepted.length < k then none else some (Err.other "write failed")

/-- The flags left at their defaults: no start page and no end page given. -/
def defaultFlags : Flags := ⟨-1, -1, 72, false⟩

/-- The bytes of the lines numbered `i + 1` to `i + k` of `ls`, each followed
by a newline. -/
def linesFrom (ls : List (List Byte)) (i k : Nat) : List Byte :=
  joinWith newline ((ls.drop i).take k)

/-- The text of 150 lines `x`. -/
def lines150 : List (List Byte) := List.replicate 150 [120]

/-- The constant `defaultBufSize` of package `bufio`: the size of the buffer
that `bufio.NewWriter` (lines 77 and 89) gives the writer. -/
def defaultBufSize : Nat := 4096

/-- The `io.Writer` under the buffer (standard output, or the pipe to `lp`):
given the bytes it has taken so far and the bytes offered, it takes them all
(`none`), or takes the first `n` of them and fails with an error.  By the
contract of `io.Writer` a write that takes fewer bytes than offered returns an
error. -/
abbrev Sink := List Byte → List Byte → Option (Nat × Err)

/-- A sink that takes every write. -/
def okSink : Sink := fun _ _ => none

/-- A sink that takes no byte and fails on every write, as `/dev/full` does. -/
def fullSink : Sink := fun _ _ => some (0, Err.other "no space left on device")

/-- The `bufio.Writer` of the code together with the sink under it: the sticky
error `err`, the buffered bytes `buf` (Go's `b.buf[0:b.n]`), and `held`, the
bytes the sink has taken. -/
structure BufWriter where
  err : Option Err
  buf : List Byte
  held : List Byte
  deriving DecidableEq, Repr

/-- The writer as `bufio.NewWriter` returns it, over a sink that holds
nothing yet. -/
def BufWriter.new : BufWriter := ⟨none, [], []⟩

/-- The method `(*bufio.Writer).Flush`: with the sticky error set it returns
it; with an empty buffer it returns `nil`; otherwise the buffer goes to the
sink, and on a failure the bytes not taken stay buffered and the error
sticks. -/
def BufWriter.Flush (k : Sink) (b : BufWriter) : BufWriter × Option Err :=
  if b.err ≠ none then (b, b.err)
  else if b.buf = [] then (b, none)
  else
    match k b.held b.buf with
    | none => (⟨none, [], b.held ++ b.buf⟩, none)
    | some (n, e) => (⟨some e, b.buf.drop n, b.held ++ b.buf.take n⟩, some e)

/-- One round of the `for` loop of `(*bufio.Writer).Write`, on the bytes `p`
still to write: with an empty buffer `p` goes straight to the sink; otherwise
the buffer is filled from `p` and flushed.  The result is the writer and the
bytes left to write. -/
def BufWriter.writeRound (k : Sink) (b : BufWriter) (p : List Byte) :
    BufWriter × List Byte :=
  if b.buf = [] then
    match k b.held p with
    | none => ({ b with held := b.held ++ p }, [])
    | some (n, e) => ({ b with err := some e, held := b.held ++ p.take n }, p.drop n)
  else
    ((BufWriter.Flush k
        { b with buf := b.buf ++ p.take (defaultBufSize - b.buf.length) }).1,
      p.drop (defaultBufSize - b.buf.length))

/-- The `for` loop of `(*bufio.Writer).Write`, run for at most `fuel` rounds:
it goes on while `p` is longer than the room left in the buffer and no error
has stuck. -/
def BufWriter.writeLoop (k : Sink) : Nat → BufWriter → List Byte → BufWriter × List Byte
  | 0, b, p => (b, p)
  | fuel + 1, b, p =>
    if p.length > defaultBufSize - b.buf.length ∧ b.err = none then
      BufWriter.writeLoop k fuel (BufWriter.writeRound k b p).1 (BufWriter.writeRound k b p).2
    else (b, p)

/-- The method `(*bufio.Writer).Write`: the `for` loop, then the sticky error
if there is one, else what is left of `p` is copied into the buffer.  Two
rounds are all the loop can make (`writeLoop_ended`). -/
def BufWriter.Write (k : Sink) (b : BufWriter) (p : List Byte) : BufWriter × Option Err :=
  if (BufWriter.writeLoop k 2 b p).1.err ≠ none then
    ((BufWriter.writeLoop k 2 b p).1, (BufWriter.writeLoop k 2 b p).1.err)
  else
    ({ (BufWriter.writeLoop k 2 b p).1 with
        buf := (BufWriter.writeLoop k 2 b p).1.buf ++
          (BufWriter.writeLoop k 2 b p).2.take
            (defaultBufSize - (BufWriter.writeLoop k 2 b p).1.buf.length) }, none)

/-- The effect of one pass through the loop body when the writer is the
buffered writer of the code. -/
inductive BStep where
  | next (s : State) (b : BufWriter) : BStep
  | stop (s : State) (b : BufWriter) (ret : Option Err) : BStep
  deriving DecidableEq, Repr

/-- One pass through the loop body (lines 102 to 123) with `writer` the
buffered writer `b` over the sink `k`, the read having returned `r`. -/
def iterationB (c : Flags) (k : Sink) (s : State) (b : BufWriter) (r : ReadResult) : BStep :=
  let s := { s with nreads := s.nreads + 1 }
  if r.err = some Err.EOF then
    BStep.stop s b none
  else if r.err ≠ none then
    BStep.stop s b r.err
  else
    let s := advance c s
    if s.pages ≥ c.startPage ∧ s.pages ≤ c.endPage then
      match (BufWriter.Write k b r.sub).2 with
      | some e => BStep.stop s (BufWriter.Write k b r.sub).1 (some e)
      | none => BStep.next { s with written := s.written ++ [r.sub] }
          (BufWriter.Write k b r.sub).1
    else
      BStep.stop s b none

/-- The loop of `readAndPrint` (lines 101 to 126) with the buffered writer:
the final loop state, the writer as the loop leaves it, and the value that
`readAndPrint` returns. -/
def loopB (c : Flags) (k : Sink) :
    State → BufWriter → List ReadResult → State × BufWriter × Option Err
  | s, b, [] =>
    match iterationB c k s b ⟨[], some Err.EOF⟩ with
    | BStep.next s1 b1 => (s1, b1, none)
    | BStep.stop s1 b1 ret => (s1, b1, ret)
  | s, b, r :: rs =>
    match iterationB c k s b r with
    | BStep.next s1 b1 => loopB c k s1 b1 rs
    | BStep.stop s1 b1 ret => (s1, b1, ret)

/-- The function `readAndPrint` from line 100 to its return, with the writer
of lines 77 and 89 over the sink `k`: the loop, then the deferred
`writer.Flush()` of line 91, whose error is dropped.  The result is the final
loop state, the writer and sink after the flush, and the value returned. -/
def readAndPrintB (c : Flags) (k : Sink) (src : List ReadResult) :
    State × BufWriter × Option Err :=
  ((loopB c k State.init BufWriter.new src).1,
    (BufWriter.Flush k (loopB c k State.init BufWriter.new src).2.1).1,
    (loopB c k State.init BufWriter.new src).2.2)

/-- The loop state and writer reached by going round once for each result of
`pre`, when none of these passes leaves the loop. -/
def passesB (c : Flags) (k : Sink) :
    State → BufWriter → List ReadResult → Option (State × BufWriter)
  | s, b, [] => some (s, b)
  | s, b, r :: rs =>
    match iterationB c k s b r with
    | BStep.next s1 b1 => passesB c k s1 b1 rs
    | BStep.stop _ _ _ => none

/-- A line of 4095 bytes `x` and its newline: with anything already in the
buffer it does not fit in the room left. -/
def longLine : List Byte := List.replicate 4095 120 ++ [newline]

/-- What the writer carries of the bytes `total` handed to it, `p` being the
part still to write: the sink holds a leading part of `total`, and as long as
no error has stuck, sink, buffer and `p` together make up `total`. -/
def BufWriter.Carries (b : BufWriter) (p total : List Byte) : Prop :=
  (∃ q, b.held ++ q = total) ∧ (b.err = none → b.held ++ b.buf ++ p = total)

/-- The loop state in which a pass through the loop body ends, whether the
loop goes on or is left. -/
def Step.state : Step → State
  | Step.next s => s
  | Step.stop s _ => s

/-- The invariant of the page counter: `pages ≥ 1` and `lines ≥ 0`; `lines`
stays 0 under the break-character policy, and does not exceed a page length
`pageLen ≥ 1` under the line-count policy. -/
def CounterInv (c : Flags) (s : State) : Prop :=
  1 ≤ s.pages ∧ 0 ≤ s.lines ∧ (c.pageBreak = true → s.lines = 0) ∧
    (c.pageBreak = false → 1 ≤ c.pageLen → s.lines ≤ c.pageLen)

/-! ## The configuration check -/

theorem pageType_eq_f (c : Flags) : pageType c = "f" ↔ c.pageBreak = true := by
  unfold pageType
  cases c.pageBreak <;> decide

theorem pageType_eq_l (c : Flags) : pageType c = "l" ↔ c.pageBreak = false := by
  unfold pageType
  cases c.pageBreak <;> decide

theorem parseArgs_nil_iff (c : Flags) : parseArgs c = ParseOutcome.nil ↔ Accepted c := by
  unfold parseArgs printUsage Accepted
  simp only [pageType_eq_f, pageType_eq_l]
  cases hb : c.pageBreak <;> split_ifs <;> simp_all <;> omega

/-- C10, the claim as stated fails: with the page flags left unset the call
ends in `os.Exit(2)` inside `printUsage`; no error is returned. -/
theorem parseArgs_unset_exits :
    parseArgs defaultFlags = ParseOutcome.exit 2 ∧
      ¬ Accepted defaultFlags ∧
      ¬ ∃ msg, parseArgs defaultFlags = ParseOutcome.error msg := by
  refine ⟨by decide, ?_, ?_⟩
  · simp [Accepted, defaultFlags]
  · rintro ⟨msg, h⟩
    have h2 : parseArgs defaultFlags = ParseOutcome.exit 2 := by decide
    rw [h2] at h
    cases h

/-- C10, amended: `parseArgs` returns `nil` exactly when `startPage ≥ 1`,
`endPage ≥ startPage`, and either the break flag is unset with `pageLen ≥ 1` or
it is set with `pageLen = 72`.  In every other case it does not return `nil`:
when `startPage` or `endPage` is `-1` the process exits with status 2, and
otherwise an error is returned.  Hence flags that reach `readAndPrint` have
`startPage ≥ 1`, `endPage ≥ startPage` and `pageLen ≥ 1`. -/
theorem parseArgs_outcome (c : Flags) :
    (parseArgs c = ParseOutcome.nil ↔ Accepted c) ∧
      (¬ Accepted c → (c.startPage = -1 ∨ c.endPage = -1) →
        parseArgs c = ParseOutcome.exit 2) ∧
      (¬ Accepted c → ¬ (c.startPage = -1 ∨ c.endPage = -1) →
        ∃ msg, parseArgs c = ParseOutcome.error msg) ∧
      (parseArgs c = ParseOutcome.nil →
        c.startPage ≥ 1 ∧ c.endPage ≥ c.startPage ∧ c.pageLen ≥ 1) := by
  refine ⟨parseArgs_nil_iff c, ?_, ?_, ?_⟩
  · intro _ h
    unfold parseArgs printUsage
    rw [if_pos h]
  · intro hacc h
    have hnil : parseArgs c ≠ ParseOutcome.nil := fun hn => hacc ((parseArgs_nil_iff c).1 hn)
    revert hnil
    unfold parseArgs
    rw [if_neg h]
    split_ifs <;> simp
  · intro hn
    have h := (parseArgs_nil_iff c).1 hn
    unfold Accepted at h
    omega

theorem parseArgs_outcome_witness :
    (¬ Accepted ⟨3, 2, 72, false⟩ ∧ ¬ ((3 : Int) = -1 ∨ (2 : Int) = -1)) ∧
      (∃ msg, parseArgs ⟨3, 2, 72, false⟩ = ParseOutcome.error msg) ∧
      (Accepted ⟨1, 2, 72, true⟩ ∧ parseArgs ⟨1, 2, 72, true⟩ = ParseOutcome.nil) := by
  have hacc : ¬ Accepted ⟨3, 2, 72, false⟩ := by
    unfold Accepted
    simp
  have hdef : ¬ ((3 : Int) = -1 ∨ (2 : Int) = -1) := by decide
  have hnil : parseArgs ⟨1, 2, 72, true⟩ = ParseOutcome.nil := by decide
  exact ⟨⟨hacc, hdef⟩, (parseArgs_outcome ⟨3, 2, 72, false⟩).2.2.1 hacc hdef,
    (parseArgs_outcome ⟨1, 2, 72, true⟩).1.1 hnil, hnil⟩

/-! ## The loop against an arbitrary source and writer -/

theorem loop_of_passes (c : Flags) (w : Writer) :
    ∀ (pre : List ReadResult) (s t : State) (rest : List ReadResult),
      passes c w s pre = some t → loop c w s (pre ++ rest) = loop c w t rest := by
  intro pre
  induction pre with
  | nil =>
    intro s t rest h
    simp only [passes, Option.some.injEq] at h
    simp [h]
  | cons r rs ih =>
    intro s t rest h
    simp only [passes] at h
    simp only [List.cons_append, loop]
    cases hit : iteration c w s r with
    | next s1 =>
      rw [hit] at h
      exact ih s1 t rest h
    | stop s1 ret =>
      rw [hit] at h
      cases h

theorem iteration_next (c : Flags) (w : Writer) (s s1 : State) (r : ReadResult)
    (h : iteration c w s r = Step.next s1) :
    r.err = none ∧ s1.written = s.written ++ [r.sub] ∧ s1.nreads = s.nreads + 1 := by
  unfold iteration at h
  simp only at h
  split_ifs at h with h1 h2 h3
  · simp only [ne_eq, Decidable.not_not] at h2
    have hw : (advance c { s with nreads := s.nreads + 1 }).written = s.written := by
      unfold advance
      split_ifs <;> rfl
    have hn : (advance c { s with nreads := s.nreads + 1 }).nreads = s.nreads + 1 := by
      unfold advance
      split_ifs <;> rfl
    split at h
    · cases h
    · cases h
      exact ⟨h2, by simp [hw], by simp [hn]⟩

theorem passes_written (c : Flags) (w : Writer) :
    ∀ (pre : List ReadResult) (s t : State), passes c w s pre = some t →
      t.written = s.written ++ pre.map ReadResult.sub ∧ t.nreads = s.nreads + pre.length := by
  intro pre
  induction pre with
  | nil =>
    intro s t h
    simp only [passes, Option.some.injEq] at h
    simp [h]
  | cons r rs ih =>
    intro s t h
    simp only [passes] at h
    cases hit : iteration c w s r with
    | next s1 =>
      rw [hit] at h
      obtain ⟨_, hw, hn⟩ := iteration_next c w s s1 r hit
      obtain ⟨h1, h2⟩ := ih s1 t h
      rw [h1, h2, hw, hn]
      simp
      omega
    | stop s1 ret =>
      rw [hit] at h
      cases h

theorem advance_written (c : Flags) (s : State) :
    (advance c s).written = s.written ∧ (advance c s).nreads = s.nreads := by
  unfold advance
  split_ifs <;> exact ⟨rfl, rfl⟩

theorem advance_nreads (c : Flags) (s : State) (k : Nat) :
    advance c { s with nreads := k } = { advance c s with nreads := k } := by
  unfold advance
  split_ifs <;> rfl

theorem iteration_eof (c : Flags) (w : Writer) (s : State) (r : ReadResult)
    (h : r.err = some Err.EOF) :
    iteration c w s r = Step.stop { s with nreads := s.nreads + 1 } none := by
  simp only [iteration, if_pos h]

theorem iteration_fail (c : Flags) (w : Writer) (s : State) (r : ReadResult) (e : Err)
    (h : r.err = some e) (hne : e ≠ Err.EOF) :
    iteration c w s r = Step.stop { s with nreads := s.nreads + 1 } (some e) := by
  have h1 : ¬ (r.err = some Err.EOF) := by
    rw [h]
    simpa using hne
  have h2 : r.err ≠ none := by
    rw [h]
    simp
  unfold iteration
  simp only [if_neg h1, if_pos h2]
  rw [h]

theorem iteration_ok (c : Flags) (w : Writer) (s : State) (r : ReadResult)
    (h : r.err = none) :
    iteration c w s r =
      if c.startPage ≤ (advance c s).pages ∧ (advance c s).pages ≤ c.endPage then
        match w s.written r.sub with
        | some e => Step.stop { advance c s with nreads := s.nreads + 1 } (some e)
        | none => Step.next { advance c s with
            written := s.written ++ [r.sub], nreads := s.nreads + 1 }
      else Step.stop { advance c s with nreads := s.nreads + 1 } none := by
  have h1 : ¬ (r.err = some Err.EOF) := by
    rw [h]
    simp
  have h2 : ¬ (r.err ≠ none) := by
    rw [h]
    simp
  simp only [iteration, if_neg h1, if_neg h2, advance_nreads, ge_iff_le,
    (advance_written c s).1]

/-- The loop with `writer.Write` taken as a call that may fail: let the loop
have gone round for each read result of `pre` without leaving.  If the next
read returns an error other than `io.EOF`, or the read succeeds, its page is in
the range and `Write` returns an error, then the loop returns that very error;
if the next read returns `io.EOF` it returns `nil`.  In each case `Write` has
accepted exactly the segments of `pre`, and the read that ended the loop is the
last one made. -/
theorem readAndPrint_stops_on_error (c : Flags) (w : Writer) (pre post : List ReadResult)
    (r : ReadResult) (s : State) (hpre : passes c w State.init pre = some s) :
    (∀ e, r.err = some e → e ≠ Err.EOF →
        (readAndPrint c w (pre ++ r :: post)).2 = some e ∧
        (readAndPrint c w (pre ++ r :: post)).1.written = pre.map ReadResult.sub ∧
        (readAndPrint c w (pre ++ r :: post)).1.nreads = pre.length + 1) ∧
    (∀ e, r.err = none →
        c.startPage ≤ (advance c s).pages → (advance c s).pages ≤ c.endPage →
        w (pre.map ReadResult.sub) r.sub = some e →
        (readAndPrint c w (pre ++ r :: post)).2 = some e ∧
        (readAndPrint c w (pre ++ r :: post)).1.written = pre.map ReadResult.sub ∧
        (readAndPrint c w (pre ++ r :: post)).1.nreads = pre.length + 1) ∧
    (r.err = some Err.EOF →
        (readAndPrint c w (pre ++ r :: post)).2 = none ∧
        (readAndPrint c w (pre ++ r :: post)).1.written = pre.map ReadResult.sub ∧
        (readAndPrint c w (pre ++ r :: post)).1.nreads = pre.length + 1) := by
  obtain ⟨hw, hn⟩ := passes_written c w pre State.init s hpre
  have hw1 : s.written = pre.map ReadResult.sub := by simpa [State.init] using hw
  have hn1 : s.nreads = pre.length := by simpa [State.init] using hn
  have hloop : readAndPrint c w (pre ++ r :: post) = loop c w s (r :: post) :=
    loop_of_passes c w pre State.init s (r :: post) hpre
  rw [hloop]
  refine ⟨?_, ?_, ?_⟩
  · intro e he hne
    have hres : loop c w s (r :: post) = ({ s with nreads := s.nreads + 1 }, some e) := by
      simp only [loop, iteration_fail c w s r e he hne]
    rw [hres]
    exact ⟨rfl, hw1, by simp [hn1]⟩
  · intro e he hlo hhi hwr
    rw [← hw1] at hwr
    have hres : loop c w s (r :: post) =
        ({ advance c s with nreads := s.nreads + 1 }, some e) := by
      simp only [loop, iteration_ok c w s r he, if_pos (And.intro hlo hhi), hwr]
    rw [hres]
    exact ⟨rfl, by simp [(advance_written c s).1, hw1], by simp [hn1]⟩
  · intro he
    have hres : loop c w s (r :: post) = ({ s with nreads := s.nreads + 1 }, none) := by
      simp only [loop, iteration_eof c w s r he]
    rw [hres]
    exact ⟨rfl, hw1, by simp [hn1]⟩

/-- Two runs over the lines `a` and `b`: one in which the second read fails,
one in which the second `Write` fails.  Each returns the error with only the
first line accepted. -/
theorem readAndPrint_stops_on_error_witness :
    (passes ⟨1, 1, 72, false⟩ okWriter State.init [⟨[97, 10], none⟩]
        = some ⟨1, 1, [[97, 10]], 1⟩ ∧
      (readAndPrint ⟨1, 1, 72, false⟩ okWriter
          ([⟨[97, 10], none⟩] ++ ⟨[98], some (Err.other "read failed")⟩ ::
            [⟨[99, 10], none⟩])).2 = some (Err.other "read failed") ∧
      (readAndPrint ⟨1, 1, 72, false⟩ okWriter
          ([⟨[97, 10], none⟩] ++ ⟨[98], some (Err.other "read failed")⟩ ::
            [⟨[99, 10], none⟩])).1.written = [[97, 10]]) ∧
    (passes ⟨1, 1, 72, false⟩ (failAfter 1) State.init [⟨[97, 10], none⟩]
        = some ⟨1, 1, [[97, 10]], 1⟩ ∧
      (readAndPrint ⟨1, 1, 72, false⟩ (failAfter 1)
          ([⟨[97, 10], none⟩] ++ ⟨[98, 10], none⟩ ::
            [⟨[99, 10], none⟩])).2 = some (Err.other "write failed") ∧
      (readAndPrint ⟨1, 1, 72, false⟩ (failAfter 1)
          ([⟨[97, 10], none⟩] ++ ⟨[98, 10], none⟩ ::
            [⟨[99, 10], none⟩])).1.written = [[97, 10]]) :=
  ⟨⟨by decide,
    ((readAndPrint_stops_on_error ⟨1, 1, 72, false⟩ okWriter [⟨[97, 10], none⟩]
      [⟨[99, 10], none⟩] ⟨[98], some (Err.other "read failed")⟩ ⟨1, 1, [[97, 10]], 1⟩
      (by decide)).1 (Err.other "read failed") rfl (by decide)).1,
    ((readAndPrint_stops_on_error ⟨1, 1, 72, false⟩ okWriter [⟨[97, 10], none⟩]
      [⟨[99, 10], none⟩] ⟨[98], some (Err.other "read failed")⟩ ⟨1, 1, [[97, 10]], 1⟩
      (by decide)).1 (Err.other "read failed") rfl (by decide)).2.1⟩,
   ⟨by decide,
    ((readAndPrint_stops_on_error ⟨1, 1, 72, false⟩ (failAfter 1) [⟨[97, 10], none⟩]
      [⟨[99, 10], none⟩] ⟨[98, 10], none⟩ ⟨1, 1, [[97, 10]], 1⟩
      (by decide)).2.1 (Err.other "write failed") rfl (by decide) (by decide) (by decide)).1,
    ((readAndPrint_stops_on_error ⟨1, 1, 72, false⟩ (failAfter 1) [⟨[97, 10], none⟩]
      [⟨[99, 10], none⟩] ⟨[98, 10], none⟩ ⟨1, 1, [[97, 10]], 1⟩
      (by decide)).2.1 (Err.other "write failed") rfl (by decide) (by decide) (by decide)).2.1⟩⟩

/-! ## The reads of an error-free byte stream -/

theorem reads_ne_nil (d : Byte) (input : List Byte) : reads d input ≠ [] := by
  cases input with
  | nil => simp [reads]
  | cons b bs =>
    unfold reads
    split_ifs
    · simp
    · split <;> simp

theorem reads_trailing (d : Byte) : ∀ t : List Byte, d ∉ t → reads d t = [⟨t, some Err.EOF⟩] := by
  intro t
  induction t with
  | nil => intro _; rfl
  | cons b bs ih =>
    intro h
    have hb : b ≠ d := fun e => h (by simp [e])
    have hbs : d ∉ bs := fun e => h (by simp [e])
    simp only [reads, if_neg hb, ih hbs]

theorem reads_segment (d : Byte) (rest : List Byte) :
    ∀ l : List Byte, d ∉ l → reads d (l ++ d :: rest) = ⟨l ++ [d], none⟩ :: reads d rest := by
  intro l
  induction l with
  | nil =>
    intro _
    simp [reads]
  | cons b bs ih =>
    intro h
    have hb : b ≠ d := fun e => h (by simp [e])
    have hbs : d ∉ bs := fun e => h (by simp [e])
    rw [List.cons_append]
    simp only [reads, if_neg hb, ih hbs, List.cons_append]

theorem joinWith_cons (d : Byte) (l : List Byte) (ls : List (List Byte)) :
    joinWith d (l :: ls) = l ++ d :: joinWith d ls := by
  simp [joinWith]

theorem reads_joinWith (d : Byte) (t : List Byte) (ht : d ∉ t) :
    ∀ ls : List (List Byte), (∀ l ∈ ls, d ∉ l) →
      reads d (joinWith d ls ++ t) =
        ls.map (fun l => (⟨l ++ [d], none⟩ : ReadResult)) ++ [⟨t, some Err.EOF⟩] := by
  intro ls
  induction ls with
  | nil =>
    intro _
    simpa [joinWith] using reads_trailing d t ht
  | cons l ls ih =>
    intro h
    have hl : d ∉ l := h l (by simp)
    have hls : ∀ x ∈ ls, d ∉ x := fun x hx => h x (by simp [hx])
    rw [joinWith_cons, List.append_assoc, List.cons_append, reads_segment d _ l hl, ih hls]
    simp

/-- Every byte stream is a sequence of `d`-terminated lines followed by a
trailing piece without `d`. -/
theorem exists_lines (d : Byte) :
    ∀ input : List Byte, ∃ (ls : List (List Byte)) (t : List Byte),
      input = joinWith d ls ++ t ∧ (∀ l ∈ ls, d ∉ l) ∧ d ∉ t := by
  intro input
  induction input with
  | nil => exact ⟨[], [], by simp [joinWith], by simp, by simp⟩
  | cons b bs ih =>
    obtain ⟨ls, t, hbs, hls, ht⟩ := ih
    by_cases hb : b = d
    · refine ⟨[] :: ls, t, ?_, ?_, ht⟩
      · rw [joinWith_cons, hbs, hb]
        simp
      · intro l hl
        rcases List.mem_cons.1 hl with h | h
        · simp [h]
        · exact hls l h
    · cases ls with
      | nil =>
        refine ⟨[], b :: t, ?_, by simp, ?_⟩
        · rw [hbs]
          simp [joinWith]
        · intro h
          rcases List.mem_cons.1 h with h | h
          · exact hb h.symm
          · exact ht h
      | cons l ls =>
        refine ⟨(b :: l) :: ls, t, ?_, ?_, ht⟩
        · rw [hbs, joinWith_cons, joinWith_cons]
          simp
        · intro x hx
          rcases List.mem_cons.1 hx with h | h
          · rw [h]
            intro hd
            rcases List.mem_cons.1 hd with h2 | h2
            · exact hb h2.symm
            · exact hls l (by simp) h2
          · exact hls x (by simp [h])

theorem truncateAfterLast_trailing (d : Byte) (t : List Byte) (ht : d ∉ t) :
    truncateAfterLast d t = [] := by
  cases t with
  | nil => rfl
  | cons b bs =>
    simp only [truncateAfterLast, if_neg ht]

theorem truncateAfterLast_segment (d : Byte) (rest : List Byte) :
    ∀ l : List Byte,
      truncateAfterLast d (l ++ d :: rest) = l ++ d :: truncateAfterLast d rest := by
  intro l
  induction l with
  | nil => simp [truncateAfterLast]
  | cons b bs ih =>
    have hmem : d ∈ b :: (bs ++ d :: rest) := by simp
    rw [List.cons_append]
    simp only [truncateAfterLast, if_pos hmem, ih, List.cons_append]

theorem truncateAfterLast_joinWith (d : Byte) (t : List Byte) (ht : d ∉ t) :
    ∀ ls : List (List Byte), truncateAfterLast d (joinWith d ls ++ t) = joinWith d ls := by
  intro ls
  induction ls with
  | nil => simpa [joinWith] using truncateAfterLast_trailing d t ht
  | cons l ls ih =>
    rw [joinWith_cons, List.append_assoc, List.cons_append, truncateAfterLast_segment, ih]

theorem joinWith_append (d : Byte) (xs ys : List (List Byte)) :
    joinWith d (xs ++ ys) = joinWith d xs ++ joinWith d ys := by
  simp [joinWith]

theorem joinWith_nil_or_ends (d : Byte) (xs : List (List Byte)) :
    joinWith d xs = [] ∨ ∃ z, joinWith d xs = z ++ [d] := by
  rcases List.eq_nil_or_concat xs with h | ⟨ys, y, h⟩
  · left
    rw [h]
    rfl
  · right
    refine ⟨joinWith d ys ++ y, ?_⟩
    rw [h, List.concat_eq_append, joinWith_append]
    simp [joinWith]

/-! ## What the loop writes is a leading run of the segments read -/

theorem loop_written_take (c : Flags) (w : Writer) (t : List Byte) :
    ∀ (segs : List (List Byte)) (s : State), ∃ k,
      (loop c w s (segs.map (fun x => (⟨x, none⟩ : ReadResult)) ++
        [⟨t, some Err.EOF⟩])).1.written = s.written ++ segs.take k := by
  intro segs
  induction segs with
  | nil =>
    intro s
    refine ⟨0, ?_⟩
    simp [loop, iteration_eof]
  | cons x xs ih =>
    intro s
    simp only [List.map_cons, List.cons_append, loop]
    rw [iteration_ok c w s ⟨x, none⟩ rfl]
    by_cases hin : c.startPage ≤ (advance c s).pages ∧ (advance c s).pages ≤ c.endPage
    · rw [if_pos hin]
      cases hw : w s.written x with
      | none =>
        obtain ⟨k, hk⟩ := ih { advance c s with
          written := s.written ++ [x], nreads := s.nreads + 1 }
        refine ⟨k + 1, ?_⟩
        simp only [hw, List.append_eq] at hk ⊢
        rw [hk]
        simp
      | some e =>
        refine ⟨0, ?_⟩
        simp [hw, (advance_written c s).1]
    · rw [if_neg hin]
      refine ⟨0, ?_⟩
      simp [(advance_written c s).1]

/-- The output of a run is the first `k` delimiter-terminated segments of the
input, for some `k`. -/
theorem output_take (c : Flags) (input : List Byte) :
    ∃ (ls : List (List Byte)) (t : List Byte) (k : Nat),
      input = joinWith (pageSpliter c) ls ++ t ∧ (∀ l ∈ ls, pageSpliter c ∉ l) ∧
      pageSpliter c ∉ t ∧ output c input = joinWith (pageSpliter c) (ls.take k) := by
  obtain ⟨ls, t, hin, hls, ht⟩ := exists_lines (pageSpliter c) input
  obtain ⟨k, hk⟩ := loop_written_take c okWriter t
    (ls.map (fun l => l ++ [pageSpliter c])) State.init
  refine ⟨ls, t, k, hin, hls, ht, ?_⟩
  unfold output run readAndPrint
  rw [hin, reads_joinWith (pageSpliter c) t ht ls hls]
  rw [List.map_map] at hk
  have hf : ((fun x => (⟨x, none⟩ : ReadResult)) ∘ fun l => l ++ [pageSpliter c]) =
      fun l => (⟨l ++ [pageSpliter c], none⟩ : ReadResult) := rfl
  rw [hf] at hk
  rw [hk]
  simp [State.init, joinWith, List.map_take]

/-! ## The line counter -/

theorem succ_div_mod_of_lt (n j : Nat) (hn : 0 < n) (h : j % n + 1 < n) :
    (j + 1) / n = j / n ∧ (j + 1) % n = j % n + 1 := by
  have h0 := Nat.div_add_mod j n
  have h1 : j + 1 = n * (j / n) + (j % n + 1) := by omega
  constructor
  · conv_lhs => rw [h1]
    rw [Nat.mul_add_div hn, Nat.div_eq_of_lt h]
    rfl
  · conv_lhs => rw [h1]
    rw [Nat.mul_add_mod, Nat.mod_eq_of_lt h]

theorem succ_div_mod_of_eq (n j : Nat) (hn : 0 < n) (h : j % n + 1 = n) :
    (j + 1) / n = j / n + 1 ∧ (j + 1) % n = 0 := by
  have h0 := Nat.div_add_mod j n
  have h1 : j + 1 = n * (j / n + 1) := by
    rw [Nat.mul_add, Nat.mul_one]
    omega
  constructor
  · conv_lhs => rw [h1]
    exact Nat.mul_div_cancel_left _ hn
  · conv_lhs => rw [h1]
    exact Nat.mul_mod_right _ _

theorem pageAfter_pos (n i : Nat) : 1 ≤ pageAfter n i := by
  cases i <;> simp [pageAfter]

theorem pageAfter_mono (n : Nat) {i j : Nat} (h : i ≤ j) : pageAfter n i ≤ pageAfter n j := by
  cases i with
  | zero => exact pageAfter_pos n j
  | succ a =>
    cases j with
    | zero => omega
    | succ b =>
      simp only [pageAfter]
      have := Nat.div_le_div_right (c := n) (show a ≤ b by omega)
      omega

theorem pageAfter_eq_ceil (n i : Nat) (hn : 0 < n) (hi : 1 ≤ i) :
    pageAfter n i = (i + n - 1) / n := by
  cases i with
  | zero => omega
  | succ j =>
    simp only [pageAfter]
    have h : j + 1 + n - 1 = j + n := by omega
    rw [h, Nat.add_div_right j hn]

theorem advance_lineState (first last : Int) (n i : Nat) (hn : 1 ≤ n)
    (wr : List (List Byte)) (rd : Nat) :
    advance ⟨first, last, n, false⟩ (lineState n i wr rd) = lineState n (i + 1) wr rd := by
  have hf : ¬ (pageType ⟨first, last, n, false⟩ = "f") := by simp [pageType_eq_f]
  unfold advance
  rw [if_neg hf]
  cases i with
  | zero =>
    have h : ¬ ((0 : Int) + 1 > (n : Int)) := by omega
    simp [lineState, pageAfter, lineAfter]
    omega
  | succ j =>
    have hle : j % n < n := Nat.mod_lt j hn
    by_cases hlt : j % n + 1 < n
    · obtain ⟨h1, h2⟩ := succ_div_mod_of_lt n j hn hlt
      have h : ¬ (((j % n + 1 : Nat) : Int) + 1 > (n : Int)) := by omega
      simp only [lineState, pageAfter, lineAfter, if_neg h, h1, h2]
      simp
    · have heq : j % n + 1 = n := by omega
      obtain ⟨h1, h2⟩ := succ_div_mod_of_eq n j hn heq
      have h : ((j % n + 1 : Nat) : Int) + 1 > (n : Int) := by omega
      simp only [lineState, pageAfter, lineAfter, if_pos h, h1, h2]
      simp

/-- With the start page at most 1 and the end page not below the page of the
last line, the loop goes round for every line and writes it. -/
theorem passes_lines (first last : Int) (n : Nat) (hn : 1 ≤ n) (hfirst : first ≤ 1) :
    ∀ (segs : List (List Byte)) (i : Nat) (wr : List (List Byte)) (rd : Nat),
      (pageAfter n (i + segs.length) : Int) ≤ last →
      passes ⟨first, last, n, false⟩ okWriter (lineState n i wr rd)
          (segs.map (fun x => (⟨x, none⟩ : ReadResult))) =
        some (lineState n (i + segs.length) (wr ++ segs) (rd + segs.length)) := by
  intro segs
  induction segs with
  | nil =>
    intro i wr rd _
    simp [passes]
  | cons x xs ih =>
    intro i wr rd hlast
    have hlen : i + (x :: xs).length = i + 1 + xs.length := by
      simp only [List.length_cons]
      omega
    rw [hlen] at hlast
    have hpos := pageAfter_pos n (i + 1)
    have hmono := pageAfter_mono n (show i + 1 ≤ i + 1 + xs.length by omega)
    have hin : first ≤ (lineState n (i + 1) wr rd).pages ∧
        (lineState n (i + 1) wr rd).pages ≤ last := by
      simp only [lineState]
      constructor <;> omega
    simp only [List.map_cons, passes]
    rw [iteration_ok _ _ _ ⟨x, none⟩ rfl, advance_lineState first last n i hn, if_pos hin]
    have hst : ({ lineState n (i + 1) wr rd with
        written := (lineState n i wr rd).written ++ [x],
        nreads := (lineState n i wr rd).nreads + 1 } : State) =
        lineState n (i + 1) (wr ++ [x]) (rd + 1) := rfl
    simp only [okWriter]
    rw [hst, ih (i + 1) (wr ++ [x]) (rd + 1) hlast, hlen]
    simp only [List.length_cons, List.append_assoc, List.singleton_append]
    have h2 : rd + 1 + xs.length = rd + (xs.length + 1) := by omega
    rw [h2]

theorem pageSpliter_lines (first last len : Int) :
    pageSpliter ⟨first, last, len, false⟩ = newline := by
  simp [pageSpliter, pageType_eq_f]

theorem reads_lines (ls : List (List Byte)) (hls : ∀ l ∈ ls, newline ∉ l) :
    reads newline (joinWith newline ls) =
      (ls.map (fun l => l ++ [newline])).map (fun x => (⟨x, none⟩ : ReadResult)) ++
        [⟨[], some Err.EOF⟩] := by
  have h := reads_joinWith newline [] (by simp) ls hls
  rw [List.append_nil] at h
  rw [h, List.map_map]
  rfl

/-- The run over `ls.length` whole lines when the loop is not left early. -/
theorem run_lines (first last : Int) (n : Nat) (hn : 1 ≤ n) (hfirst : first ≤ 1)
    (ls : List (List Byte)) (hls : ∀ l ∈ ls, newline ∉ l)
    (hlast : (pageAfter n ls.length : Int) ≤ last) :
    run ⟨first, last, n, false⟩ (joinWith newline ls) =
      (lineState n ls.length (ls.map (fun l => l ++ [newline])) (ls.length + 1), none) := by
  have hp := passes_lines first last n hn hfirst (ls.map (fun l => l ++ [newline])) 0 [] 0
    (by simpa using hlast)
  simp only [List.length_map, Nat.zero_add, List.nil_append] at hp
  unfold run readAndPrint
  rw [pageSpliter_lines, reads_lines ls hls]
  have h0 : State.init = lineState n 0 [] 0 := rfl
  rw [h0, loop_of_passes _ _ _ _ _ _ hp]
  simp only [loop, iteration_eof _ _ _ ⟨[], some Err.EOF⟩ rfl]
  rfl

/-! ## Runs that depart from the intended page selection -/

/-- C1, the code at the scenario of the claim: on 150 lines `x`, 72 lines a
page and the range [2,2], the first line is page 1, which is below the start
page, and the loop is left at once: nothing is written, where the claim has
the lines 73 to 144. -/
theorem page_two_of_150_lines_not_written :
    run ⟨2, 2, 72, false⟩ (joinWith newline lines150) = (⟨1, 1, [], 1⟩, none) ∧
      output ⟨2, 2, 72, false⟩ (joinWith newline lines150) = [] ∧
      output ⟨2, 2, 72, false⟩ (joinWith newline lines150) ≠ linesFrom lines150 72 72 := by
  decide

/-- C2, the code on the lines `a` and `b` with the range [2,2]: the first line
is page 1, below the start page; the loop is left after this one read, with
the second line unread, although the page number is not above the end page. -/
theorem loop_left_on_page_below_start :
    reads newline [97, 10, 98, 10] = [⟨[97, 10], none⟩, ⟨[98, 10], none⟩, ⟨[], some Err.EOF⟩] ∧
      run ⟨2, 2, 72, false⟩ [97, 10, 98, 10] = (⟨1, 1, [], 1⟩, none) ∧
      ¬ ((run ⟨2, 2, 72, false⟩ [97, 10, 98, 10]).1.pages >
        (⟨2, 2, 72, false⟩ : Flags).endPage) := by
  decide

/-- C3, the code on `A\fB\f` with the range [1,2]: the first segment is tested
as page 2 and written, the second as page 3 and refused, so the output is
`A\f`, not the whole input. -/
theorem break_pages_numbered_from_two :
    output ⟨1, 2, 72, true⟩ [65, 12, 66, 12] = [65, 12] ∧
      run ⟨1, 2, 72, true⟩ [65, 12, 66, 12] = (⟨3, 0, [[65, 12]], 2⟩, none) := by
  decide

/-- C4, the code on the one-page input `A\f` with the range [1,1] under the
break-character policy: the only segment is tested as page 2, and nothing is
written. -/
theorem single_break_page_not_returned :
    output ⟨1, 1, 72, true⟩ [65, 12] = [] ∧
      run ⟨1, 1, 72, true⟩ [65, 12] = (⟨2, 0, [], 1⟩, none) := by
  decide

/-- C5, the code on the one-page input `A\f` with the range [2,2] under the
break-character policy: the stream has a single form feed, fewer pages than
the start page, yet its only segment is written. -/
theorem page_past_the_end_written :
    List.count formFeed [65, 12] = 1 ∧
      output ⟨2, 2, 72, true⟩ [65, 12] = [65, 12] ∧
      (run ⟨2, 2, 72, true⟩ [65, 12]).2 = none := by
  decide

/-! ## Properties of the output that hold for every run -/

/-- C7: under the break-character policy, whatever the input and the range,
the output is a contiguous part of the input cut after its last form feed, so
no byte that follows the last form feed is ever written; on `A\fB\fC` with the
range [1,3] the output is `A\fB\f`. -/
theorem output_within_last_formFeed :
    (∀ (first last len : Int) (input : List Byte), ∃ p q,
        truncateAfterLast formFeed input = p ++ output ⟨first, last, len, true⟩ input ++ q) ∧
      output ⟨1, 3, 72, true⟩ [65, 12, 66, 12, 67] = [65, 12, 66, 12] := by
  refine ⟨?_, by decide⟩
  intro first last len input
  obtain ⟨ls, t, k, hin, _, ht, hout⟩ := output_take ⟨first, last, len, true⟩ input
  have hd : pageSpliter ⟨first, last, len, true⟩ = formFeed := by
    simp [pageSpliter, pageType_eq_f]
  rw [hd] at hin ht hout
  refine ⟨[], joinWith formFeed (ls.drop k), ?_⟩
  rw [hout, List.nil_append, ← joinWith_append, List.take_append_drop]
  conv_lhs => rw [hin]
  exact truncateAfterLast_joinWith formFeed t ht ls

/-- C8: for both policies, every input and every range, the output is a
contiguous span of the input, `input = p ++ output ++ q`, that starts on a
segment boundary, consists of whole delimiter-terminated segments in their
order, and so is empty or ends with the active delimiter. -/
theorem output_is_span_of_whole_segments (c : Flags) (input : List Byte) :
    ∃ (p q : List Byte) (segs : List (List Byte)),
      input = p ++ output c input ++ q ∧
      (p = [] ∨ ∃ z, p = z ++ [pageSpliter c]) ∧
      output c input = joinWith (pageSpliter c) segs ∧
      (∀ l ∈ segs, pageSpliter c ∉ l) ∧
      (output c input = [] ∨ ∃ z, output c input = z ++ [pageSpliter c]) := by
  obtain ⟨ls, t, k, hin, hls, _, hout⟩ := output_take c input
  refine ⟨[], joinWith (pageSpliter c) (ls.drop k) ++ t, ls.take k, ?_, Or.inl rfl, hout,
    fun l hl => hls l (List.mem_of_mem_take hl), ?_⟩
  · rw [hout, List.nil_append, ← List.append_assoc, ← joinWith_append, List.take_append_drop]
    exact hin
  · rw [hout]
    exact joinWith_nil_or_ends (pageSpliter c) (ls.take k)

/-- C6: under `FixedLineCount(n)` with `n ≥ 1`, start page 1 and an end page
not below `⌈L/n⌉` (no early exit), on an input of `L ≥ 1` whole lines: the loop
goes round for each line `i` and holds the page number `⌈i/n⌉` when it tests
that line; after `L = k*n` lines (`k ≥ 1`) the counter is `pages = k`,
`lines = n`; after `L = k*n + r` lines (`0 < r < n`) it is `pages = k + 1`,
`lines = r`. -/
theorem line_counter_pages (n : Nat) (last : Int) (ls : List (List Byte)) (hn : 1 ≤ n)
    (hls : ∀ l ∈ ls, newline ∉ l)
    (hlast : (((ls.length + n - 1) / n : Nat) : Int) ≤ last) :
    (∀ i, 1 ≤ i → i ≤ ls.length →
      ∃ s, passes ⟨1, last, n, false⟩ okWriter State.init
          ((reads newline (joinWith newline ls)).take i) = some s ∧
        s.pages = (((i + n - 1) / n : Nat) : Int)) ∧
    (∀ k, 1 ≤ k → ls.length = k * n →
      (run ⟨1, last, n, false⟩ (joinWith newline ls)).1.pages = (k : Int) ∧
      (run ⟨1, last, n, false⟩ (joinWith newline ls)).1.lines = (n : Int)) ∧
    (∀ k r, 0 < r → r < n → ls.length = k * n + r →
      (run ⟨1, last, n, false⟩ (joinWith newline ls)).1.pages = (k : Int) + 1 ∧
      (run ⟨1, last, n, false⟩ (joinWith newline ls)).1.lines = (r : Int)) := by
  have hceil : ∀ i, 1 ≤ i → i ≤ ls.length → (pageAfter n i : Int) ≤ last := by
    intro i h1 h2
    have hm := pageAfter_mono n h2
    rw [pageAfter_eq_ceil n ls.length hn (by omega)] at hm
    omega
  refine ⟨?_, ?_, ?_⟩
  · intro i h1 h2
    refine ⟨lineState n i ((ls.take i).map (fun l => l ++ [newline])) i, ?_, ?_⟩
    · have hlen : ((ls.take i).map (fun l => l ++ [newline])).length = i := by
        simp [List.length_take, h2]
      have hp := passes_lines 1 last n hn (le_refl 1)
        ((ls.take i).map (fun l => l ++ [newline])) 0 [] 0
        (by rw [hlen, Nat.zero_add]; exact hceil i h1 h2)
      rw [hlen] at hp
      simp only [Nat.zero_add, List.nil_append] at hp
      rw [reads_lines ls hls, List.take_append_of_le_length (by simp [h2]),
        ← List.map_take, ← List.map_take]
      exact hp
    · simp only [lineState]
      rw [pageAfter_eq_ceil n i hn h1]
  · intro k hk hL
    have hL1 : 1 ≤ ls.length := by
      rw [hL]
      exact Nat.mul_pos hk hn
    rw [run_lines 1 last n hn (le_refl 1) ls hls (hceil ls.length hL1 (le_refl _))]
    simp only [lineState]
    obtain ⟨j, hj⟩ : ∃ j, k = j + 1 := ⟨k - 1, by omega⟩
    have hL2 : ls.length = (j * n + (n - 1)) + 1 := by
      rw [hL, hj, Nat.add_mul]
      omega
    rw [hL2]
    simp only [pageAfter, lineAfter]
    have hlt : n - 1 < n := by omega
    have hdiv : (j * n + (n - 1)) / n = j := by
      rw [Nat.mul_comm, Nat.mul_add_div hn, Nat.div_eq_of_lt hlt]
      rfl
    have hmod : (j * n + (n - 1)) % n = n - 1 := by
      rw [Nat.mul_comm, Nat.mul_add_mod, Nat.mod_eq_of_lt hlt]
    rw [hdiv, hmod, hj]
    constructor
    · push_cast
      rfl
    · congr 1
      omega
  · intro k r hr hrn hL
    have hL1 : 1 ≤ ls.length := by omega
    rw [run_lines 1 last n hn (le_refl 1) ls hls (hceil ls.length hL1 (le_refl _))]
    simp only [lineState]
    have hL2 : ls.length = (k * n + (r - 1)) + 1 := by omega
    rw [hL2]
    simp only [pageAfter, lineAfter]
    have hlt : r - 1 < n := by omega
    have hdiv : (k * n + (r - 1)) / n = k := by
      rw [Nat.mul_comm, Nat.mul_add_div hn, Nat.div_eq_of_lt hlt]
      rfl
    have hmod : (k * n + (r - 1)) % n = r - 1 := by
      rw [Nat.mul_comm, Nat.mul_add_mod, Nat.mod_eq_of_lt hlt]
    rw [hdiv, hmod]
    constructor
    · push_cast
      rfl
    · congr 1
      omega

/-- Three lines `a`, `b`, `c` with two lines to a page and the range [1,2]:
the counter ends at page 2, line 1; with a fourth line `d` it ends at page 2,
line 2. -/
theorem line_counter_pages_witness :
    ((1 ≤ 2 ∧ (∀ l ∈ [[97], [98], [99]], newline ∉ l) ∧
        ((([[97], [98], [99]] : List (List Byte)).length + 2 - 1) / 2 : Nat) ≤ (2 : Int)) ∧
      (run ⟨1, 2, (2 : Nat), false⟩ (joinWith newline [[97], [98], [99]])).1.pages
          = ((1 : Nat) : Int) + 1 ∧
      (run ⟨1, 2, (2 : Nat), false⟩ (joinWith newline [[97], [98], [99]])).1.lines
          = ((1 : Nat) : Int)) ∧
    (run ⟨1, 2, (2 : Nat), false⟩ (joinWith newline [[97], [98], [99], [100]])).1.pages
          = ((2 : Nat) : Int) ∧
    (run ⟨1, 2, (2 : Nat), false⟩ (joinWith newline [[97], [98], [99], [100]])).1.lines
          = ((2 : Nat) : Int) :=
  ⟨⟨⟨by decide, by decide, by decide⟩,
    (line_counter_pages 2 2 [[97], [98], [99]] (by decide) (by decide) (by decide)).2.2
      1 1 (by decide) (by decide) (by decide)⟩,
    (line_counter_pages 2 2 [[97], [98], [99], [100]] (by decide) (by decide)
      (by decide)).2.1 2 (by decide) (by decide)⟩

/-! ## Termination and the number of reads -/

/-- Either the loop goes round for every result of the source, or it is left
at some result `r`, after going round for those before it. -/
theorem passes_or_stops (c : Flags) (w : Writer) :
    ∀ (rs : List ReadResult) (s : State),
      (∃ t, passes c w s rs = some t) ∨
      ∃ (pre post : List ReadResult) (r : ReadResult) (t t2 : State) (ret : Option Err),
        rs = pre ++ r :: post ∧ passes c w s pre = some t ∧
        iteration c w t r = Step.stop t2 ret ∧ loop c w s rs = (t2, ret) := by
  intro rs
  induction rs with
  | nil =>
    intro s
    exact Or.inl ⟨s, rfl⟩
  | cons r rs ih =>
    intro s
    cases hit : iteration c w s r with
    | next s1 =>
      rcases ih s1 with ⟨t, ht⟩ | ⟨pre, post, r2, t, t2, ret, hrs, hp, hst, hl⟩
      · left
        exact ⟨t, by simp only [passes, hit, ht]⟩
      · right
        refine ⟨r :: pre, post, r2, t, t2, ret, by simp [hrs], ?_, hst, ?_⟩
        · simp only [passes, hit, hp]
        · simp only [loop, hit, hl]
    | stop s1 ret =>
      right
      exact ⟨[], rs, r, s, s1, ret, rfl, rfl, hit, by simp only [loop, hit]⟩

theorem passes_all_ok (c : Flags) (w : Writer) :
    ∀ (rs : List ReadResult) (s t : State), passes c w s rs = some t →
      ∀ r ∈ rs, r.err = none := by
  intro rs
  induction rs with
  | nil =>
    intro s t _ r hr
    cases hr
  | cons x xs ih =>
    intro s t h r hr
    simp only [passes] at h
    cases hit : iteration c w s x with
    | next s1 =>
      rw [hit] at h
      rcases List.mem_cons.1 hr with h1 | h1
      · rw [h1]
        exact (iteration_next c w s s1 x hit).1
      · exact ih s1 t h r h1
    | stop s1 ret =>
      rw [hit] at h
      cases h

theorem reads_length (d : Byte) :
    ∀ input : List Byte, (reads d input).length = input.count d + 1 := by
  intro input
  induction input with
  | nil => rfl
  | cons b bs ih =>
    by_cases hb : b = d
    · simp only [reads, if_pos hb, List.length_cons, ih]
      rw [hb, List.count_cons_self]
    · have hne := reads_ne_nil d bs
      cases hrs : reads d bs with
      | nil => exact absurd hrs hne
      | cons r rs =>
        rw [hrs] at ih
        simp only [reads, if_neg hb, hrs, List.length_cons] at ih ⊢
        rw [List.count_cons_of_ne (Ne.symm hb)]
        exact ih

theorem reads_err (d : Byte) (input : List Byte) :
    (∀ r ∈ reads d input, r.err = none ∨ r.err = some Err.EOF) ∧
      ∃ r ∈ reads d input, r.err = some Err.EOF := by
  obtain ⟨ls, t, hin, hls, ht⟩ := exists_lines d input
  rw [hin, reads_joinWith d t ht ls hls]
  constructor
  · intro r hr
    rcases List.mem_append.1 hr with h | h
    · obtain ⟨l, _, hl⟩ := List.mem_map.1 h
      left
      rw [← hl]
    · right
      rw [List.mem_singleton.1 h]
  · exact ⟨⟨t, some Err.EOF⟩, by simp, rfl⟩

/-- C11: for every input, both policies and every range, on error-free
streams the loop ends and `readAndPrint` returns `nil`; it makes at most `d + 1`
reads, `d` being the number of delimiter bytes of the input; and the read that
ends it, which follows reads for which the loop went round, either returned
`io.EOF` or returned a segment whose page number lies outside the range. -/
theorem run_terminates (c : Flags) (input : List Byte) :
    (run c input).2 = none ∧
    (run c input).1.nreads ≤ input.count (pageSpliter c) + 1 ∧
    ∃ (pre post : List ReadResult) (r : ReadResult) (s : State),
      reads (pageSpliter c) input = pre ++ r :: post ∧
      passes c okWriter State.init pre = some s ∧
      (run c input).1.nreads = pre.length + 1 ∧
      (r.err = some Err.EOF ∨
        (r.err = none ∧
          ¬ (c.startPage ≤ (advance c s).pages ∧ (advance c s).pages ≤ c.endPage))) := by
  have hlen := reads_length (pageSpliter c) input
  obtain ⟨herr, r0, hr0, hr0e⟩ := reads_err (pageSpliter c) input
  rcases passes_or_stops c okWriter (reads (pageSpliter c) input) State.init with
    ⟨t, ht⟩ | ⟨pre, post, r, t, t2, ret, hrs, hp, hst, hl⟩
  · have h := passes_all_ok c okWriter _ _ _ ht r0 hr0
    rw [h] at hr0e
    cases hr0e
  · have hn : t.nreads = pre.length := by
      simpa [State.init] using (passes_written c okWriter pre State.init t hp).2
    have hpl : pre.length + 1 ≤ input.count (pageSpliter c) + 1 := by
      rw [← hlen, hrs]
      simp
    have hrun : run c input = (t2, ret) := hl
    have hmem : r ∈ reads (pageSpliter c) input := by
      rw [hrs]
      simp
    rcases herr r hmem with he | he
    · rw [iteration_ok c okWriter t r he] at hst
      by_cases hin : c.startPage ≤ (advance c t).pages ∧ (advance c t).pages ≤ c.endPage
      · rw [if_pos hin] at hst
        simp [okWriter] at hst
      · rw [if_neg hin] at hst
        simp only [Step.stop.injEq] at hst
        obtain ⟨h1, h2⟩ := hst
        have hn2 : t2.nreads = pre.length + 1 := by
          rw [← h1, ← hn]
        rw [hrun]
        exact ⟨h2.symm, by rw [hn2]; exact hpl,
          pre, post, r, t, hrs, hp, hn2, Or.inr ⟨he, hin⟩⟩
    · rw [iteration_eof c okWriter t r he] at hst
      simp only [Step.stop.injEq] at hst
      obtain ⟨h1, h2⟩ := hst
      have hn2 : t2.nreads = pre.length + 1 := by
        rw [← h1, ← hn]
      rw [hrun]
      exact ⟨h2.symm, by rw [hn2]; exact hpl,
        pre, post, r, t, hrs, hp, hn2, Or.inl he⟩

/-! ## The invariant of the page counter -/

/-- The counters after a pass: advanced when the read returned a segment, left
alone when it returned an error. -/
theorem iteration_state_counters (c : Flags) (w : Writer) (s : State) (r : ReadResult) :
    (r.err = none →
      (iteration c w s r).state.pages = (advance c s).pages ∧
      (iteration c w s r).state.lines = (advance c s).lines) ∧
    (r.err ≠ none →
      (iteration c w s r).state.pages = s.pages ∧
      (iteration c w s r).state.lines = s.lines) := by
  constructor
  · intro he
    rw [iteration_ok c w s r he]
    split_ifs
    · split <;> exact ⟨rfl, rfl⟩
    · exact ⟨rfl, rfl⟩
  · intro he
    obtain ⟨e, hsome⟩ : ∃ e, r.err = some e := by
      cases h : r.err with
      | none => exact absurd h he
      | some e => exact ⟨e, rfl⟩
    by_cases heof : e = Err.EOF
    · rw [iteration_eof c w s r (by rw [hsome, heof])]
      exact ⟨rfl, rfl⟩
    · rw [iteration_fail c w s r e hsome heof]
      exact ⟨rfl, rfl⟩

theorem advance_break (c : Flags) (s : State) (h : c.pageBreak = true) :
    (advance c s).pages = s.pages + 1 ∧ (advance c s).lines = s.lines := by
  have hf : pageType c = "f" := (pageType_eq_f c).2 h
  unfold advance
  rw [if_pos hf]
  exact ⟨rfl, rfl⟩

theorem advance_count (c : Flags) (s : State) (h : c.pageBreak = false) :
    (s.lines + 1 > c.pageLen →
      (advance c s).pages = s.pages + 1 ∧ (advance c s).lines = 1) ∧
    (¬ (s.lines + 1 > c.pageLen) →
      (advance c s).pages = s.pages ∧ (advance c s).lines = s.lines + 1) := by
  have hf : ¬ (pageType c = "f") := by
    rw [pageType_eq_f, h]
    simp
  unfold advance
  rw [if_neg hf]
  constructor
  · intro hgt
    rw [if_pos hgt]
    exact ⟨rfl, rfl⟩
  · intro hle
    rw [if_neg hle]
    exact ⟨rfl, rfl⟩

theorem counterInv_advance (c : Flags) (s : State) (h : CounterInv c s) :
    CounterInv c (advance c s) := by
  obtain ⟨h1, h2, h3, h4⟩ := h
  cases hb : c.pageBreak with
  | true =>
    obtain ⟨hp, hl⟩ := advance_break c s hb
    refine ⟨by omega, by omega, fun _ => by rw [hl]; exact h3 hb, fun hc => ?_⟩
    rw [hb] at hc
    cases hc
  | false =>
    obtain ⟨hgt, hle⟩ := advance_count c s hb
    by_cases hc : s.lines + 1 > c.pageLen
    · obtain ⟨hp, hl⟩ := hgt hc
      refine ⟨by omega, by omega, fun ht => ?_, fun _ hn => by omega⟩
      rw [hb] at ht
      cases ht
    · obtain ⟨hp, hl⟩ := hle hc
      refine ⟨by omega, by omega, fun ht => ?_, fun _ _ => by omega⟩
      rw [hb] at ht
      cases ht

theorem counterInv_iteration (c : Flags) (w : Writer) (s : State) (r : ReadResult)
    (h : CounterInv c s) : CounterInv c (iteration c w s r).state := by
  obtain ⟨hok, hbad⟩ := iteration_state_counters c w s r
  by_cases he : r.err = none
  · obtain ⟨hp, hl⟩ := hok he
    have ha := counterInv_advance c s h
    unfold CounterInv at ha ⊢
    rw [hp, hl]
    exact ha
  · obtain ⟨hp, hl⟩ := hbad he
    unfold CounterInv at h ⊢
    rw [hp, hl]
    exact h

theorem counterInv_passes (c : Flags) (w : Writer) :
    ∀ (pre : List ReadResult) (s t : State), CounterInv c s →
      passes c w s pre = some t → CounterInv c t := by
  intro pre
  induction pre with
  | nil =>
    intro s t h hp
    simp only [passes, Option.some.injEq] at hp
    rw [← hp]
    exact h
  | cons r rs ih =>
    intro s t h hp
    simp only [passes] at hp
    have hinv := counterInv_iteration c w s r h
    cases hit : iteration c w s r with
    | next s1 =>
      rw [hit] at hp hinv
      exact ih s1 t hinv hp
    | stop s1 ret =>
      rw [hit] at hp
      cases hp

theorem counterInv_init (c : Flags) : CounterInv c State.init := by
  unfold CounterInv State.init
  refine ⟨by decide, by decide, fun _ => rfl, fun _ h => ?_⟩
  show (0 : Int) ≤ c.pageLen
  omega

/-- C12: let `s` be the loop state after any number of passes from
`pages, lines = 1, 0`, and take one more pass, on the read result `r`.  Before
and after it `pages ≥ 1` and `lines ≥ 0`; `pages` does not decrease and grows by
at most 1.  Under `FixedLineCount(n)` with `n ≥ 1`, a pass that read a line
leaves `1 ≤ lines ≤ n`, and `pages` grows exactly when the page held `n` lines
already, the line read being then line 1 of the new page.  Under the
break-character policy a pass that read a segment adds exactly 1 to `pages`, and
`lines` stays 0. -/
theorem counter_invariant (c : Flags) (w : Writer) (pre : List ReadResult) (s : State)
    (r : ReadResult) (hpre : passes c w State.init pre = some s) :
    (1 ≤ s.pages ∧ 0 ≤ s.lines) ∧
    (1 ≤ (iteration c w s r).state.pages ∧ 0 ≤ (iteration c w s r).state.lines) ∧
    (s.pages ≤ (iteration c w s r).state.pages ∧
      (iteration c w s r).state.pages ≤ s.pages + 1) ∧
    (c.pageBreak = false → 1 ≤ c.pageLen → r.err = none →
      1 ≤ (iteration c w s r).state.lines ∧
      (iteration c w s r).state.lines ≤ c.pageLen ∧
      ((iteration c w s r).state.pages = s.pages + 1 ↔ s.lines = c.pageLen) ∧
      ((iteration c w s r).state.pages = s.pages + 1 →
        (iteration c w s r).state.lines = 1)) ∧
    (c.pageBreak = true →
      s.lines = 0 ∧ (iteration c w s r).state.lines = 0 ∧
      (r.err = none → (iteration c w s r).state.pages = s.pages + 1)) := by
  have hs : CounterInv c s := counterInv_passes c w pre State.init s (counterInv_init c) hpre
  have hs2 : CounterInv c (iteration c w s r).state := counterInv_iteration c w s r hs
  obtain ⟨hok, hbad⟩ := iteration_state_counters c w s r
  obtain ⟨a1, a2, a3, a4⟩ := hs
  obtain ⟨b1, b2, b3, b4⟩ := hs2
  refine ⟨⟨a1, a2⟩, ⟨b1, b2⟩, ?_, ?_, ?_⟩
  · by_cases he : r.err = none
    · obtain ⟨hp, _⟩ := hok he
      rw [hp]
      cases hb : c.pageBreak with
      | true =>
        obtain ⟨h1, _⟩ := advance_break c s hb
        omega
      | false =>
        obtain ⟨hgt, hle⟩ := advance_count c s hb
        by_cases hc : s.lines + 1 > c.pageLen
        · obtain ⟨h1, _⟩ := hgt hc
          omega
        · obtain ⟨h1, _⟩ := hle hc
          omega
    · obtain ⟨hp, _⟩ := hbad he
      omega
  · intro hb hn he
    obtain ⟨hp, hl⟩ := hok he
    obtain ⟨hgt, hle⟩ := advance_count c s hb
    have hsl := a4 hb hn
    rw [hp, hl]
    by_cases hc : s.lines + 1 > c.pageLen
    · obtain ⟨h1, h2⟩ := hgt hc
      rw [h1, h2]
      exact ⟨by omega, by omega, ⟨fun _ => by omega, fun _ => rfl⟩, fun _ => rfl⟩
    · obtain ⟨h1, h2⟩ := hle hc
      rw [h1, h2]
      exact ⟨by omega, by omega, ⟨fun h => by omega, fun h => by omega⟩, fun h => by omega⟩
  · intro hb
    refine ⟨a3 hb, b3 hb, fun he => ?_⟩
    rw [(hok he).1]
    exact (advance_break c s hb).1

/-- Two lines to a page, the lines `a` and `b` passed: the third line opens
page 2 as its line 1.  Under the break-character policy the segment after
`A\f` takes `pages` from 2 to 3. -/
theorem counter_invariant_witness :
    (passes ⟨1, 2, 2, false⟩ okWriter State.init [⟨[97, 10], none⟩, ⟨[98, 10], none⟩]
        = some ⟨1, 2, [[97, 10], [98, 10]], 2⟩ ∧
      (iteration ⟨1, 2, 2, false⟩ okWriter ⟨1, 2, [[97, 10], [98, 10]], 2⟩
        ⟨[99, 10], none⟩).state.lines = 1) ∧
    (passes ⟨1, 3, 72, true⟩ okWriter State.init [⟨[65, 12], none⟩]
        = some ⟨2, 0, [[65, 12]], 1⟩ ∧
      (iteration ⟨1, 3, 72, true⟩ okWriter ⟨2, 0, [[65, 12]], 1⟩
        ⟨[66, 12], none⟩).state.pages = 2 + 1) :=
  ⟨⟨by decide,
    ((counter_invariant ⟨1, 2, 2, false⟩ okWriter [⟨[97, 10], none⟩, ⟨[98, 10], none⟩]
      ⟨1, 2, [[97, 10], [98, 10]], 2⟩ ⟨[99, 10], none⟩ (by decide)).2.2.2.1
        rfl (by decide) rfl).2.2.2
      (((counter_invariant ⟨1, 2, 2, false⟩ okWriter [⟨[97, 10], none⟩, ⟨[98, 10], none⟩]
        ⟨1, 2, [[97, 10], [98, 10]], 2⟩ ⟨[99, 10], none⟩ (by decide)).2.2.2.1
          rfl (by decide) rfl).2.2.1.2 rfl)⟩,
   ⟨by decide,
    ((counter_invariant ⟨1, 3, 72, true⟩ okWriter [⟨[65, 12], none⟩]
      ⟨2, 0, [[65, 12]], 1⟩ ⟨[66, 12], none⟩ (by decide)).2.2.2.2 rfl).2.2 rfl⟩⟩

/-! ## What the line-count policy writes -/

theorem pageAfter_le (n e m : Nat) (he : 1 ≤ e) (hm : m ≤ e * n) : pageAfter n m ≤ e := by
  cases m with
  | zero => exact he
  | succ j =>
    simp only [pageAfter]
    have h : j < n * e := by
      rw [Nat.mul_comm]
      omega
    have := Nat.div_lt_of_lt_mul h
    omega

theorem pageAfter_full (n e : Nat) (hn : 1 ≤ n) : pageAfter n (e * n + 1) = e + 1 := by
  simp only [pageAfter]
  rw [Nat.mul_div_cancel e hn]

theorem reads_lines_trailing (ls : List (List Byte)) (t : List Byte)
    (hls : ∀ l ∈ ls, newline ∉ l) (ht : newline ∉ t) :
    reads newline (joinWith newline ls ++ t) =
      (ls.map (fun l => l ++ [newline])).map (fun x => (⟨x, none⟩ : ReadResult)) ++
        [⟨t, some Err.EOF⟩] := by
  rw [reads_joinWith newline t ht ls hls, List.map_map]
  rfl

/-- The pass on a line whose page number is outside the range leaves the
loop with nothing more written. -/
theorem loop_line_outside (first last : Int) (n i : Nat) (hn : 1 ≤ n)
    (wr : List (List Byte)) (rd : Nat) (x : List Byte) (rest : List ReadResult)
    (hout : ¬ (first ≤ (pageAfter n (i + 1) : Int) ∧ (pageAfter n (i + 1) : Int) ≤ last)) :
    loop ⟨first, last, n, false⟩ okWriter (lineState n i wr rd) (⟨x, none⟩ :: rest) =
      (lineState n (i + 1) wr (rd + 1), none) := by
  have hout2 : ¬ (first ≤ (lineState n (i + 1) wr rd).pages ∧
      (lineState n (i + 1) wr rd).pages ≤ last) := hout
  simp only [loop]
  rw [iteration_ok _ _ _ ⟨x, none⟩ rfl, advance_lineState first last n i hn, if_neg hout2]
  rfl

/-- With start page 1 and end page `e ≥ 1` the loop writes the first `e * n`
lines, or all of them when there are fewer. -/
theorem run_lines_take (n e : Nat) (hn : 1 ≤ n) (he : 1 ≤ e) (ls : List (List Byte))
    (t : List Byte) (hls : ∀ l ∈ ls, newline ∉ l) (ht : newline ∉ t) :
    (run ⟨1, e, n, false⟩ (joinWith newline ls ++ t)).1.written =
      (ls.take (e * n)).map (fun l => l ++ [newline]) := by
  have hk : ((ls.take (e * n)).map (fun l => l ++ [newline])).length ≤ e * n := by
    simp only [List.length_map, List.length_take]
    omega
  have hp := passes_lines 1 e n hn (le_refl 1)
    ((ls.take (e * n)).map (fun l => l ++ [newline])) 0 [] 0
    (by
      rw [Nat.zero_add]
      exact_mod_cast pageAfter_le n e _ he hk)
  simp only [Nat.zero_add, List.nil_append] at hp
  have hsplit : ls.map (fun l => l ++ [newline]) =
      (ls.take (e * n)).map (fun l => l ++ [newline]) ++
        (ls.drop (e * n)).map (fun l => l ++ [newline]) := by
    rw [← List.map_append, List.take_append_drop]
  unfold run readAndPrint
  rw [pageSpliter_lines, reads_lines_trailing ls t hls ht, hsplit, List.map_append,
    List.append_assoc]
  have h0 : State.init = lineState n 0 [] 0 := rfl
  rw [h0, loop_of_passes _ _ _ _ _ _ hp]
  cases hd : ls.drop (e * n) with
  | nil =>
    simp only [List.map_nil, List.nil_append, loop,
      iteration_eof _ _ _ ⟨t, some Err.EOF⟩ rfl]
    rfl
  | cons x xs =>
    have hlt : e * n < ls.length := by
      by_contra hge
      rw [List.drop_of_length_le (by omega)] at hd
      cases hd
    have hlen : ((ls.take (e * n)).map (fun l => l ++ [newline])).length = e * n := by
      simp only [List.length_map, List.length_take]
      omega
    rw [hlen]
    simp only [List.map_cons, List.cons_append]
    rw [loop_line_outside 1 e n (e * n) hn _ _ _ _ (by
      rw [pageAfter_full n e hn]
      push_cast
      omega)]
    rfl

/-- With a start page of 2 or more the first line is refused as page 1 and
nothing is written. -/
theorem run_lines_nothing (first last : Int) (n : Nat) (hn : 1 ≤ n) (hfirst : 2 ≤ first)
    (input : List Byte) : (run ⟨first, last, n, false⟩ input).1.written = [] := by
  obtain ⟨herr, _⟩ := reads_err newline input
  unfold run readAndPrint
  rw [pageSpliter_lines]
  cases hrs : reads newline input with
  | nil => exact absurd hrs (reads_ne_nil newline input)
  | cons r rs =>
    have hmem : r ∈ reads newline input := by
      rw [hrs]
      simp
    rcases herr r hmem with he | he
    · have h0 : State.init = lineState n 0 [] 0 := rfl
      have hr : r = ⟨r.sub, none⟩ := by
        cases r
        simp only at he
        rw [he]
      rw [h0, hr, loop_line_outside first last n 0 hn [] 0 r.sub rs (by
        simp only [pageAfter]
        rw [Nat.zero_div]
        push_cast
        omega)]
      rfl
    · simp only [loop, iteration_eof _ _ _ r he]
      rfl

/-- C13: under `FixedLineCount(n)` with `n ≥ 1` and a range `1 ≤ start ≤ end`,
on an input of `L` newline-terminated lines (followed by any unterminated rest)
the loop as written outputs the first `min(L, end * n)` lines when `start = 1`,
and nothing when `start ≥ 2`. -/
theorem fixedLineCount_output_as_written (n : Nat) (first last : Int)
    (ls : List (List Byte)) (t : List Byte) (hn : 1 ≤ n)
    (hlast : first ≤ last) (hls : ∀ l ∈ ls, newline ∉ l) (ht : newline ∉ t) :
    (first = 1 →
      output ⟨first, last, n, false⟩ (joinWith newline ls ++ t) =
        joinWith newline (ls.take (min ls.length (last.toNat * n)))) ∧
    (2 ≤ first → output ⟨first, last, n, false⟩ (joinWith newline ls ++ t) = []) := by
  constructor
  · intro h1
    have he : 1 ≤ last.toNat := by omega
    have hcast : ((last.toNat : Nat) : Int) = last := Int.toNat_of_nonneg (by omega)
    have hw := run_lines_take n last.toNat hn he ls t hls ht
    rw [hcast] at hw
    have hmin : ls.take (min ls.length (last.toNat * n)) = ls.take (last.toNat * n) := by
      rcases le_total ls.length (last.toNat * n) with h | h
      · rw [min_eq_left h, List.take_of_length_le h, List.take_of_length_le (le_refl _)]
      · rw [min_eq_right h]
    unfold output
    rw [h1, hw, hmin]
    rfl
  · intro h2
    unfold output
    rw [run_lines_nothing first last n hn h2]
    rfl

/-- Five lines, two lines to a page: the range [1,2] gives the first four
lines, the range [2,2] gives nothing. -/
theorem fixedLineCount_output_as_written_witness :
    output ⟨1, 2, (2 : Nat), false⟩
        (joinWith newline [[97], [98], [99], [100], [101]] ++ [102]) =
      joinWith newline
        (([[97], [98], [99], [100], [101]] : List (List Byte)).take
          (min ([[97], [98], [99], [100], [101]] : List (List Byte)).length
            ((2 : Int).toNat * 2))) ∧
    output ⟨2, 2, (2 : Nat), false⟩
        (joinWith newline [[97], [98], [99], [100], [101]] ++ [102]) = [] :=
  ⟨(fixedLineCount_output_as_written 2 1 2 [[97], [98], [99], [100], [101]] [102]
      (by decide) (by decide) (by decide) (by decide)).1 rfl,
    (fixedLineCount_output_as_written 2 2 2 [[97], [98], [99], [100], [101]] [102]
      (by decide) (by decide) (by decide) (by decide)).2 (by decide)⟩

/-! ## What the break-character policy writes -/

theorem pageSpliter_breaks (first last len : Int) :
    pageSpliter ⟨first, last, len, true⟩ = formFeed := by
  simp [pageSpliter, pageType_eq_f]

/-- Under the break-character policy `pages` has grown by one for each pass
made. -/
theorem passes_break_pages (c : Flags) (w : Writer) (hb : c.pageBreak = true) :
    ∀ (pre : List ReadResult) (s t : State), passes c w s pre = some t →
      t.pages = s.pages + pre.length := by
  intro pre
  induction pre with
  | nil =>
    intro s t h
    simp only [passes, Option.some.injEq] at h
    simp [h]
  | cons r rs ih =>
    intro s t h
    simp only [passes] at h
    cases hit : iteration c w s r with
    | next s1 =>
      rw [hit] at h
      have he := (iteration_next c w s s1 r hit).1
      have hp := ((iteration_state_counters c w s r).1 he).1
      rw [hit] at hp
      have hp1 : s1.pages = s.pages + 1 := by
        rw [← (advance_break c s hb).1]
        exact hp
      rw [ih s1 t h, hp1]
      simp only [List.length_cons]
      push_cast
      omega
    | stop s1 ret =>
      rw [hit] at h
      cases h

/-- The loop goes round for every segment as long as the counter stays in the
range. -/
theorem passes_breaks (first last len : Int) :
    ∀ (segs : List (List Byte)) (p l : Int) (wr : List (List Byte)) (rd : Nat),
      first ≤ p + 1 → p + segs.length ≤ last →
      passes ⟨first, last, len, true⟩ okWriter ⟨p, l, wr, rd⟩
          (segs.map (fun x => (⟨x, none⟩ : ReadResult))) =
        some ⟨p + segs.length, l, wr ++ segs, rd + segs.length⟩ := by
  intro segs
  induction segs with
  | nil =>
    intro p l wr rd _ _
    simp [passes]
  | cons x xs ih =>
    intro p l wr rd hlo hhi
    simp only [List.length_cons] at hhi
    push_cast at hhi
    have hadv : advance ⟨first, last, len, true⟩ ⟨p, l, wr, rd⟩ = ⟨p + 1, l, wr, rd⟩ := by
      unfold advance
      rw [if_pos ((pageType_eq_f _).2 rfl)]
    have hin : first ≤ (⟨p + 1, l, wr, rd⟩ : State).pages ∧
        (⟨p + 1, l, wr, rd⟩ : State).pages ≤ last := by
      constructor
      · exact hlo
      · show p + 1 ≤ last
        omega
    simp only [List.map_cons, passes]
    rw [iteration_ok _ _ _ ⟨x, none⟩ rfl, hadv, if_pos hin]
    simp only [okWriter]
    rw [ih (p + 1) l (wr ++ [x]) (rd + 1) (by omega) (by omega)]
    simp only [List.length_cons, List.append_assoc, List.singleton_append]
    push_cast
    have h1 : p + 1 + (xs.length : Int) = p + ((xs.length : Int) + 1) := by omega
    have h2 : rd + 1 + xs.length = rd + (xs.length + 1) := by omega
    rw [h1, h2]

/-- The pass on a segment whose page number is outside the range leaves the
loop with nothing more written. -/
theorem loop_break_outside (first last len p l : Int) (wr : List (List Byte)) (rd : Nat)
    (x : List Byte) (rest : List ReadResult)
    (hout : ¬ (first ≤ p + 1 ∧ p + 1 ≤ last)) :
    loop ⟨first, last, len, true⟩ okWriter ⟨p, l, wr, rd⟩ (⟨x, none⟩ :: rest) =
      (⟨p + 1, l, wr, rd + 1⟩, none) := by
  have hadv : advance ⟨first, last, len, true⟩ ⟨p, l, wr, rd⟩ = ⟨p + 1, l, wr, rd⟩ := by
    unfold advance
    rw [if_pos ((pageType_eq_f _).2 rfl)]
  have hout2 : ¬ (first ≤ (⟨p + 1, l, wr, rd⟩ : State).pages ∧
      (⟨p + 1, l, wr, rd⟩ : State).pages ≤ last) := hout
  simp only [loop]
  rw [iteration_ok _ _ _ ⟨x, none⟩ rfl, hadv, if_neg hout2]

theorem reads_breaks_trailing (ls : List (List Byte)) (t : List Byte)
    (hls : ∀ l ∈ ls, formFeed ∉ l) (ht : formFeed ∉ t) :
    reads formFeed (joinWith formFeed ls ++ t) =
      (ls.map (fun l => l ++ [formFeed])).map (fun x => (⟨x, none⟩ : ReadResult)) ++
        [⟨t, some Err.EOF⟩] := by
  rw [reads_joinWith formFeed t ht ls hls, List.map_map]
  rfl

/-- With a start page of at most 2 and the end page `e + 1` the loop writes the
first `e` segments, or all of them when there are fewer. -/
theorem run_breaks_take (first last len : Int) (e : Nat) (hfirst : first ≤ 2)
    (hlast : last = (e : Int) + 1) (ls : List (List Byte)) (t : List Byte)
    (hls : ∀ l ∈ ls, formFeed ∉ l) (ht : formFeed ∉ t) :
    (run ⟨first, last, len, true⟩ (joinWith formFeed ls ++ t)).1.written =
      (ls.take e).map (fun l => l ++ [formFeed]) := by
  have hk : ((ls.take e).map (fun l => l ++ [formFeed])).length ≤ e := by
    simp only [List.length_map, List.length_take]
    omega
  have hp := passes_breaks first last len ((ls.take e).map (fun l => l ++ [formFeed]))
    1 0 [] 0 (by omega) (by omega)
  simp only [Nat.zero_add, List.nil_append] at hp
  have hsplit : ls.map (fun l => l ++ [formFeed]) =
      (ls.take e).map (fun l => l ++ [formFeed]) ++
        (ls.drop e).map (fun l => l ++ [formFeed]) := by
    rw [← List.map_append, List.take_append_drop]
  unfold run readAndPrint
  rw [pageSpliter_breaks, reads_breaks_trailing ls t hls ht, hsplit, List.map_append,
    List.append_assoc]
  have h0 : State.init = ⟨1, 0, [], 0⟩ := rfl
  rw [h0, loop_of_passes _ _ _ _ _ _ hp]
  cases hd : ls.drop e with
  | nil =>
    simp only [List.map_nil, List.nil_append, loop,
      iteration_eof _ _ _ ⟨t, some Err.EOF⟩ rfl]
  | cons x xs =>
    have hlt : e < ls.length := by
      by_contra hge
      rw [List.drop_of_length_le (by omega)] at hd
      cases hd
    have hlen : ((ls.take e).map (fun l => l ++ [formFeed])).length = e := by
      simp only [List.length_map, List.length_take]
      omega
    rw [hlen]
    simp only [List.map_cons, List.cons_append]
    rw [loop_break_outside first last len _ _ _ _ _ _ (by omega)]

/-- With a start page of 3 or more the first segment is refused as page 2 and
nothing is written. -/
theorem run_breaks_nothing (first last len : Int) (hfirst : 3 ≤ first)
    (input : List Byte) : (run ⟨first, last, len, true⟩ input).1.written = [] := by
  obtain ⟨herr, _⟩ := reads_err formFeed input
  unfold run readAndPrint
  rw [pageSpliter_breaks]
  cases hrs : reads formFeed input with
  | nil => exact absurd hrs (reads_ne_nil formFeed input)
  | cons r rs =>
    have hmem : r ∈ reads formFeed input := by
      rw [hrs]
      simp
    rcases herr r hmem with he | he
    · have h0 : State.init = ⟨1, 0, [], 0⟩ := rfl
      have hr : r = ⟨r.sub, none⟩ := by
        cases r
        simp only at he
        rw [he]
      rw [h0, hr, loop_break_outside first last len 1 0 [] 0 r.sub rs (by omega)]
    · simp only [loop, iteration_eof _ _ _ r he]
      rfl

/-- C14: under the break-character policy the loop as written tests the segment
read after `i - 1` passes, the `i`-th one, with the page number `i + 1`.  For a
range `1 ≤ start ≤ end` and an input of `m` form-feed-terminated segments
(followed by any unterminated rest) the output is the first `min(m, end - 1)`
segments when `start ≤ 2`, and is empty when `start ≥ 3`; the range [1,1] gives
empty output on every input. -/
theorem breakCharacter_output_as_written (first last len : Int) (ls : List (List Byte))
    (t : List Byte) (hfirst : 1 ≤ first) (hlast : first ≤ last)
    (hls : ∀ l ∈ ls, formFeed ∉ l) (ht : formFeed ∉ t) :
    (∀ (w : Writer) (pre : List ReadResult) (s : State),
      passes ⟨first, last, len, true⟩ w State.init pre = some s →
        (advance ⟨first, last, len, true⟩ s).pages = ((pre.length + 1 : Nat) : Int) + 1) ∧
    (first ≤ 2 →
      output ⟨first, last, len, true⟩ (joinWith formFeed ls ++ t) =
        joinWith formFeed (ls.take (min ls.length (last - 1).toNat))) ∧
    (3 ≤ first → output ⟨first, last, len, true⟩ (joinWith formFeed ls ++ t) = []) ∧
    (∀ input : List Byte, output ⟨1, 1, len, true⟩ input = []) := by
  refine ⟨?_, ?_, ?_, ?_⟩
  · intro w pre s hp
    have h := passes_break_pages ⟨first, last, len, true⟩ w rfl pre State.init s hp
    rw [(advance_break ⟨first, last, len, true⟩ s rfl).1, h]
    simp only [State.init]
    push_cast
    omega
  · intro h2
    have hcast : (((last - 1).toNat : Nat) : Int) = last - 1 :=
      Int.toNat_of_nonneg (by omega)
    have hw := run_breaks_take first last len (last - 1).toNat h2 (by omega) ls t hls ht
    have hmin : ls.take (min ls.length (last - 1).toNat) = ls.take (last - 1).toNat := by
      rcases le_total ls.length (last - 1).toNat with h | h
      · rw [min_eq_left h, List.take_of_length_le h, List.take_of_length_le (le_refl _)]
      · rw [min_eq_right h]
    unfold output
    rw [hw, hmin]
    rfl
  · intro h3
    unfold output
    rw [run_breaks_nothing first last len h3]
    rfl
  · intro input
    obtain ⟨ls2, t2, hin, hls2, ht2⟩ := exists_lines formFeed input
    have hw := run_breaks_take 1 1 len 0 (by decide) (by decide) ls2 t2 hls2 ht2
    unfold output
    rw [hin, hw]
    rfl

/-- Three segments `A`, `B`, `C`: the range [2,3] gives the first two, the
range [3,3] gives nothing. -/
theorem breakCharacter_output_as_written_witness :
    output ⟨2, 3, 72, true⟩ (joinWith formFeed [[65], [66], [67]] ++ [68]) =
      joinWith formFeed
        (([[65], [66], [67]] : List (List Byte)).take
          (min ([[65], [66], [67]] : List (List Byte)).length ((3 : Int) - 1).toNat)) ∧
    output ⟨3, 3, 72, true⟩ (joinWith formFeed [[65], [66], [67]] ++ [68]) = [] :=
  ⟨(breakCharacter_output_as_written 2 3 72 [[65], [66], [67]] [68]
      (by decide) (by decide) (by decide) (by decide)).2.1 (by decide),
    (breakCharacter_output_as_written 3 3 72 [[65], [66], [67]] [68]
      (by decide) (by decide) (by decide) (by decide)).2.2.1 (by decide)⟩

/-! ## The unterminated end of the input -/

/-- The bytes that come with `io.EOF` play no role in the run. -/
theorem loop_eof_bytes (c : Flags) (w : Writer) (t : List Byte) :
    ∀ (rs : List ReadResult) (s : State),
      loop c w s (rs ++ [⟨t, some Err.EOF⟩]) = loop c w s (rs ++ [⟨[], some Err.EOF⟩]) := by
  intro rs
  induction rs with
  | nil =>
    intro s
    simp only [List.nil_append, loop, iteration_eof _ _ _ ⟨t, some Err.EOF⟩ rfl,
      iteration_eof _ _ _ ⟨[], some Err.EOF⟩ rfl]
  | cons r rs ih =>
    intro s
    simp only [List.cons_append, loop]
    cases iteration c w s r with
    | next s1 => exact ih s1
    | stop s1 ret => rfl

/-- The run on an input is the run on the input cut after its last delimiter. -/
theorem run_truncate (c : Flags) (input : List Byte) :
    run c input = run c (truncateAfterLast (pageSpliter c) input) := by
  obtain ⟨ls, t, hin, hls, ht⟩ := exists_lines (pageSpliter c) input
  have htr : truncateAfterLast (pageSpliter c) input = joinWith (pageSpliter c) ls ++ [] := by
    rw [hin, truncateAfterLast_joinWith (pageSpliter c) t ht ls, List.append_nil]
  rw [htr]
  conv_lhs => rw [hin]
  unfold run readAndPrint
  rw [reads_joinWith (pageSpliter c) t ht ls hls,
    reads_joinWith (pageSpliter c) [] (by simp) ls hls]
  exact loop_eof_bytes c okWriter t _ State.init

/-- C15: under `FixedLineCount(n)`, for every range and every input, the output
is the output for the input cut after its last newline, and is a leading part
of that cut input, so a last line without a newline is never written; the pass
whose read returns bytes together with `io.EOF` writes nothing.  On `a\nb` with
`n = 72` and the range [1,1] the output is `a\n`. -/
theorem unterminated_last_line_dropped :
    (∀ (first last len : Int) (input : List Byte),
      output ⟨first, last, len, false⟩ input =
        output ⟨first, last, len, false⟩ (truncateAfterLast newline input) ∧
      ∃ q, truncateAfterLast newline input = output ⟨first, last, len, false⟩ input ++ q) ∧
    (∀ (c : Flags) (w : Writer) (s : State) (sub : List Byte),
      iteration c w s ⟨sub, some Err.EOF⟩ = Step.stop { s with nreads := s.nreads + 1 } none) ∧
    output ⟨1, 1, 72, false⟩ [97, 10, 98] = [97, 10] := by
  refine ⟨?_, ?_, by decide⟩
  · intro first last len input
    constructor
    · have h := run_truncate ⟨first, last, len, false⟩ input
      rw [pageSpliter_lines] at h
      unfold output
      rw [← h]
    · obtain ⟨ls, t, k, hin, _, ht, hout⟩ := output_take ⟨first, last, len, false⟩ input
      rw [pageSpliter_lines] at hin ht hout
      refine ⟨joinWith newline (ls.drop k), ?_⟩
      rw [hout, ← joinWith_append, List.take_append_drop]
      conv_lhs => rw [hin]
      exact truncateAfterLast_joinWith newline t ht ls
  · intro c w s sub
    exact iteration_eof c w s ⟨sub, some Err.EOF⟩ rfl

/-! ## The buffered writer -/

theorem flush_ret (k : Sink) (b : BufWriter) :
    (BufWriter.Flush k b).2 = (BufWriter.Flush k b).1.err ∧
      ((BufWriter.Flush k b).2 = none → (BufWriter.Flush k b).1.buf = []) := by
  unfold BufWriter.Flush
  by_cases h1 : b.err ≠ none
  · rw [if_pos h1]
    exact ⟨rfl, fun h => absurd h h1⟩
  · rw [if_neg h1]
    simp only [ne_eq, Decidable.not_not] at h1
    by_cases h2 : b.buf = []
    · rw [if_pos h2]
      exact ⟨h1.symm, fun _ => h2⟩
    · rw [if_neg h2]
      cases k b.held b.buf with
      | none => exact ⟨rfl, fun _ => rfl⟩
      | some ne => exact ⟨rfl, fun h => by cases h⟩

theorem flush_carries (k : Sink) (b : BufWriter) (p total : List Byte)
    (h : b.Carries p total) : (BufWriter.Flush k b).1.Carries p total := by
  unfold BufWriter.Flush
  by_cases h1 : b.err ≠ none
  · rw [if_pos h1]
    exact h
  · rw [if_neg h1]
    simp only [ne_eq, Decidable.not_not] at h1
    by_cases h2 : b.buf = []
    · rw [if_pos h2]
      exact h
    · rw [if_neg h2]
      have ht := h.2 h1
      cases k b.held b.buf with
      | none =>
        refine ⟨⟨p, ?_⟩, fun _ => ?_⟩
        · exact ht
        · simpa using ht
      | some ne =>
        refine ⟨⟨b.buf.drop ne.1 ++ p, ?_⟩, fun he => by cases he⟩
        show b.held ++ b.buf.take ne.1 ++ (b.buf.drop ne.1 ++ p) = total
        rw [← ht, List.append_assoc, ← List.append_assoc (b.buf.take ne.1),
          List.take_append_drop, List.append_assoc]

theorem writeRound_carries (k : Sink) (b : BufWriter) (p total : List Byte)
    (he : b.err = none) (h : b.Carries p total) :
    (BufWriter.writeRound k b p).1.Carries (BufWriter.writeRound k b p).2 total := by
  have ht := h.2 he
  unfold BufWriter.writeRound
  by_cases h2 : b.buf = []
  · rw [if_pos h2]
    rw [h2, List.append_nil] at ht
    cases hk : k b.held p with
    | none =>
      refine ⟨⟨[], ?_⟩, fun _ => ?_⟩
      · simpa using ht
      · simpa [h2] using ht
    | some ne =>
      refine ⟨⟨p.drop ne.1, ?_⟩, fun hc => by cases hc⟩
      show b.held ++ p.take ne.1 ++ p.drop ne.1 = total
      rw [List.append_assoc, List.take_append_drop]
      exact ht
  · rw [if_neg h2]
    apply flush_carries
    refine ⟨⟨b.buf ++ p, ?_⟩, fun _ => ?_⟩
    · show b.held ++ (b.buf ++ p) = total
      rw [← List.append_assoc]
      exact ht
    · show b.held ++ (b.buf ++ p.take (defaultBufSize - b.buf.length)) ++
        p.drop (defaultBufSize - b.buf.length) = total
      rw [← ht, List.append_assoc, List.append_assoc, List.append_assoc,
        List.take_append_drop]

theorem writeLoop_carries (k : Sink) (total : List Byte) :
    ∀ (fuel : Nat) (b : BufWriter) (p : List Byte), b.Carries p total →
      (BufWriter.writeLoop k fuel b p).1.Carries (BufWriter.writeLoop k fuel b p).2 total := by
  intro fuel
  induction fuel with
  | zero =>
    intro b p h
    exact h
  | succ n ih =>
    intro b p h
    unfold BufWriter.writeLoop
    by_cases hc : p.length > defaultBufSize - b.buf.length ∧ b.err = none
    · rw [if_pos hc]
      exact ih _ _ (writeRound_carries k b p total hc.2 h)
    · rw [if_neg hc]
      exact h

/-- After a round that started without a sticky error, an error has stuck,
or nothing is left to write, or the buffer is empty. -/
theorem writeRound_after (k : Sink) (b : BufWriter) (p : List Byte) (he : b.err = none) :
    (BufWriter.writeRound k b p).1.err ≠ none ∨ (BufWriter.writeRound k b p).2 = [] ∨
      ((BufWriter.writeRound k b p).1.buf = [] ∧ (BufWriter.writeRound k b p).1.err = none) := by
  unfold BufWriter.writeRound
  by_cases h2 : b.buf = []
  · rw [if_pos h2]
    cases k b.held p with
    | none => exact Or.inr (Or.inl rfl)
    | some ne =>
      left
      simp
  · rw [if_neg h2]
    have hne : b.buf ++ p.take (defaultBufSize - b.buf.length) ≠ [] := by
      intro h
      exact h2 (List.append_eq_nil.1 h).1
    unfold BufWriter.Flush
    have h1 : ¬ (({ b with buf := b.buf ++ p.take (defaultBufSize - b.buf.length) } :
        BufWriter).err ≠ none) := by
      simpa using he
    rw [if_neg h1, if_neg hne]
    cases k b.held (b.buf ++ p.take (defaultBufSize - b.buf.length)) with
    | none => exact Or.inr (Or.inr ⟨rfl, rfl⟩)
    | some ne =>
      left
      simp

/-- After a round that started with an empty buffer and no sticky error, an
error has stuck or nothing is left to write. -/
theorem writeRound_direct (k : Sink) (b : BufWriter) (p : List Byte) (hb : b.buf = []) :
    (BufWriter.writeRound k b p).1.err ≠ none ∨ (BufWriter.writeRound k b p).2 = [] := by
  unfold BufWriter.writeRound
  rw [if_pos hb]
  cases k b.held p with
  | none => exact Or.inr rfl
  | some ne =>
    left
    simp

/-- The `for` loop of `Write` has ended after two rounds: its condition no
longer holds. -/
theorem writeLoop_ended (k : Sink) (b : BufWriter) (p : List Byte) :
    ¬ ((BufWriter.writeLoop k 2 b p).2.length >
        defaultBufSize - (BufWriter.writeLoop k 2 b p).1.buf.length ∧
      (BufWriter.writeLoop k 2 b p).1.err = none) := by
  by_cases hc : p.length > defaultBufSize - b.buf.length ∧ b.err = none
  · have hr := writeRound_after k b p hc.2
    by_cases hc2 : (BufWriter.writeRound k b p).2.length >
        defaultBufSize - (BufWriter.writeRound k b p).1.buf.length ∧
        (BufWriter.writeRound k b p).1.err = none
    · have hbuf : (BufWriter.writeRound k b p).1.buf = [] := by
        rcases hr with h | h | h
        · exact absurd hc2.2 h
        · rw [h] at hc2
          simp at hc2
        · exact h.1
      have hd := writeRound_direct k (BufWriter.writeRound k b p).1
        (BufWriter.writeRound k b p).2 hbuf
      simp only [BufWriter.writeLoop, if_pos hc, if_pos hc2]
      rintro ⟨h1, h2⟩
      rcases hd with h | h
      · exact h h2
      · rw [h] at h1
        simp at h1
    · simp only [BufWriter.writeLoop, if_pos hc, if_neg hc2]
      exact hc2
  · simp only [BufWriter.writeLoop, if_neg hc]
    exact hc

/-- More fuel than two rounds changes nothing. -/
theorem writeLoop_fuel (k : Sink) (b : BufWriter) (p : List Byte) (m : Nat) :
    BufWriter.writeLoop k (2 + m) b p = BufWriter.writeLoop k 2 b p := by
  have hend := writeLoop_ended k b p
  have hstop : ∀ (n : Nat) (b1 : BufWriter) (p1 : List Byte),
      ¬ (p1.length > defaultBufSize - b1.buf.length ∧ b1.err = none) →
      BufWriter.writeLoop k n b1 p1 = (b1, p1) := by
    intro n b1 p1 h
    cases n with
    | zero => rfl
    | succ n => simp only [BufWriter.writeLoop, if_neg h]
  have hadd : ∀ (n : Nat) (b1 : BufWriter) (p1 : List Byte),
      BufWriter.writeLoop k (n + m) b1 p1 =
        BufWriter.writeLoop k m (BufWriter.writeLoop k n b1 p1).1
          (BufWriter.writeLoop k n b1 p1).2 := by
    intro n
    induction n with
    | zero =>
      intro b1 p1
      simp [BufWriter.writeLoop]
    | succ n ih =>
      intro b1 p1
      rw [Nat.succ_add]
      by_cases h : p1.length > defaultBufSize - b1.buf.length ∧ b1.err = none
      · simp only [BufWriter.writeLoop, if_pos h]
        exact ih _ _
      · simp only [BufWriter.writeLoop, if_neg h]
        exact (hstop m b1 p1 h).symm
  rw [hadd 2 b p, hstop m _ _ hend]

theorem write_ret (k : Sink) (b : BufWriter) (p : List Byte) :
    (BufWriter.Write k b p).2 = (BufWriter.Write k b p).1.err := by
  unfold BufWriter.Write
  by_cases h : (BufWriter.writeLoop k 2 b p).1.err ≠ none
  · rw [if_pos h]
  · rw [if_neg h]
    simp only [ne_eq, Decidable.not_not] at h
    exact h.symm

/-- What `Write` does to the bytes it is given: the sink holds a leading part
of all the bytes given so far, and when `Write` returns `nil` sink and buffer
together hold them all. -/
theorem write_carries (k : Sink) (b : BufWriter) (p total : List Byte)
    (h : b.Carries [] total) : (BufWriter.Write k b p).1.Carries [] (total ++ p) := by
  have h0 : b.Carries p (total ++ p) := by
    obtain ⟨⟨q, hq⟩, h2⟩ := h
    refine ⟨⟨q ++ p, ?_⟩, fun he => ?_⟩
    · rw [← List.append_assoc, hq]
    · have := h2 he
      rw [List.append_nil] at this
      rw [this]
  have hl := writeLoop_carries k (total ++ p) 2 b p h0
  have hend := writeLoop_ended k b p
  unfold BufWriter.Write
  by_cases he : (BufWriter.writeLoop k 2 b p).1.err ≠ none
  · rw [if_pos he]
    exact ⟨hl.1, fun hc => absurd hc he⟩
  · rw [if_neg he]
    simp only [ne_eq, Decidable.not_not] at he
    have hlen : (BufWriter.writeLoop k 2 b p).2.length ≤
        defaultBufSize - (BufWriter.writeLoop k 2 b p).1.buf.length := by
      by_contra hgt
      exact hend ⟨by omega, he⟩
    refine ⟨hl.1, fun _ => ?_⟩
    show (BufWriter.writeLoop k 2 b p).1.held ++
      ((BufWriter.writeLoop k 2 b p).1.buf ++ (BufWriter.writeLoop k 2 b p).2.take
        (defaultBufSize - (BufWriter.writeLoop k 2 b p).1.buf.length)) ++ [] = total ++ p
    rw [List.take_of_length_le hlen, List.append_nil, ← List.append_assoc]
    exact hl.2 he

theorem carries_new : BufWriter.new.Carries [] [] :=
  ⟨⟨[], rfl⟩, fun _ => rfl⟩

/-! ## The loop with the buffered writer -/

theorem iterationB_eof (c : Flags) (k : Sink) (s : State) (b : BufWriter) (r : ReadResult)
    (h : r.err = some Err.EOF) :
    iterationB c k s b r = BStep.stop { s with nreads := s.nreads + 1 } b none := by
  simp only [iterationB, if_pos h]

theorem iterationB_fail (c : Flags) (k : Sink) (s : State) (b : BufWriter) (r : ReadResult)
    (e : Err) (h : r.err = some e) (hne : e ≠ Err.EOF) :
    iterationB c k s b r = BStep.stop { s with nreads := s.nreads + 1 } b (some e) := by
  have h1 : ¬ (r.err = some Err.EOF) := by
    rw [h]
    simpa using hne
  have h2 : r.err ≠ none := by
    rw [h]
    simp
  unfold iterationB
  simp only [if_neg h1, if_pos h2]
  rw [h]

theorem iterationB_ok (c : Flags) (k : Sink) (s : State) (b : BufWriter) (r : ReadResult)
    (h : r.err = none) :
    iterationB c k s b r =
      if c.startPage ≤ (advance c s).pages ∧ (advance c s).pages ≤ c.endPage then
        match (BufWriter.Write k b r.sub).2 with
        | some e => BStep.stop { advance c s with nreads := s.nreads + 1 }
            (BufWriter.Write k b r.sub).1 (some e)
        | none => BStep.next { advance c s with
            written := s.written ++ [r.sub], nreads := s.nreads + 1 }
            (BufWriter.Write k b r.sub).1
      else BStep.stop { advance c s with nreads := s.nreads + 1 } b none := by
  have h1 : ¬ (r.err = some Err.EOF) := by
    rw [h]
    simp
  have h2 : ¬ (r.err ≠ none) := by
    rw [h]
    simp
  simp only [iterationB, if_neg h1, if_neg h2, advance_nreads, ge_iff_le,
    (advance_written c s).1]

theorem loopB_of_passesB (c : Flags) (k : Sink) :
    ∀ (pre : List ReadResult) (s t : State) (b d : BufWriter) (rest : List ReadResult),
      passesB c k s b pre = some (t, d) →
        loopB c k s b (pre ++ rest) = loopB c k t d rest := by
  intro pre
  induction pre with
  | nil =>
    intro s t b d rest h
    simp only [passesB, Option.some.injEq, Prod.mk.injEq] at h
    simp [h.1, h.2]
  | cons r rs ih =>
    intro s t b d rest h
    simp only [passesB] at h
    simp only [List.cons_append, loopB]
    cases hit : iterationB c k s b r with
    | next s1 b1 =>
      rw [hit] at h
      exact ih s1 t b1 d rest h
    | stop s1 b1 ret =>
      rw [hit] at h
      cases h

/-- A pass that goes round has read a segment, `Write` has accepted it without
a sticky error, and the writer carries it with the earlier ones. -/
theorem iterationB_next (c : Flags) (k : Sink) (s s1 : State) (b b1 : BufWriter)
    (r : ReadResult) (total : List Byte) (hc : b.Carries [] total)
    (h : iterationB c k s b r = BStep.next s1 b1) :
    r.err = none ∧ s1.written = s.written ++ [r.sub] ∧ s1.nreads = s.nreads + 1 ∧
      b1.err = none ∧ b1.Carries [] (total ++ r.sub) := by
  have he : r.err = none := by
    by_contra hne
    obtain ⟨e, hsome⟩ : ∃ e, r.err = some e := by
      cases h0 : r.err with
      | none => exact absurd h0 hne
      | some e => exact ⟨e, rfl⟩
    by_cases heof : e = Err.EOF
    · rw [iterationB_eof c k s b r (by rw [hsome, heof])] at h
      cases h
    · rw [iterationB_fail c k s b r e hsome heof] at h
      cases h
  rw [iterationB_ok c k s b r he] at h
  split_ifs at h with hin
  have hret := write_ret k b r.sub
  have hcar := write_carries k b r.sub total hc
  cases hw : (BufWriter.Write k b r.sub).2 with
  | some e =>
    rw [hw] at h
    cases h
  | none =>
    rw [hw] at h
    simp only [BStep.next.injEq] at h
    obtain ⟨h1, h2⟩ := h
    rw [hw] at hret
    refine ⟨he, ?_, ?_, ?_, ?_⟩
    · rw [← h1]
    · rw [← h1]
    · rw [← h2]
      exact hret.symm
    · rw [← h2]
      exact hcar

theorem passesB_carries (c : Flags) (k : Sink) :
    ∀ (pre : List ReadResult) (s t : State) (b d : BufWriter),
      b.err = none → b.Carries [] s.written.flatten →
      passesB c k s b pre = some (t, d) →
        t.written = s.written ++ pre.map ReadResult.sub ∧
        t.nreads = s.nreads + pre.length ∧
        d.err = none ∧ d.Carries [] t.written.flatten := by
  intro pre
  induction pre with
  | nil =>
    intro s t b d he hc h
    simp only [passesB, Option.some.injEq, Prod.mk.injEq] at h
    rw [← h.1, ← h.2]
    exact ⟨by simp, by simp, he, hc⟩
  | cons r rs ih =>
    intro s t b d he hc h
    simp only [passesB] at h
    cases hit : iterationB c k s b r with
    | next s1 b1 =>
      rw [hit] at h
      obtain ⟨_, hw, hn, he1, hc1⟩ := iterationB_next c k s s1 b b1 r _ hc hit
      have hc2 : b1.Carries [] s1.written.flatten := by
        rw [hw]
        simpa using hc1
      obtain ⟨h1, h2, h3, h4⟩ := ih s1 t b1 d he1 hc2 h
      refine ⟨?_, ?_, h3, h4⟩
      · rw [h1, hw]
        simp
      · rw [h2, hn]
        simp only [List.length_cons]
        omega
    | stop s1 b1 ret =>
      rw [hit] at h
      cases h

/-- What the sink holds once the deferred `Flush` has run on a writer that
carries `total`: a leading part of `total`, and all of it when the flush
returns `nil`. -/
theorem flush_held (k : Sink) (b : BufWriter) (total : List Byte)
    (hc : b.Carries [] total) :
    (∃ q, (BufWriter.Flush k b).1.held ++ q = total) ∧
      ((BufWriter.Flush k b).2 = none → (BufWriter.Flush k b).1.held = total) := by
  have hf := flush_carries k b [] total hc
  obtain ⟨hret, hbuf⟩ := flush_ret k b
  refine ⟨hf.1, fun h => ?_⟩
  have he : (BufWriter.Flush k b).1.err = none := by
    rw [← hret]
    exact h
  have h2 := hf.2 he
  rw [hbuf h] at h2
  simpa using h2

/-- C9, amended: let the loop have gone round for each read result of `pre`,
with the buffered writer of the code over any sink.  If the next read returns
an error other than `io.EOF`, or the read succeeds, its page is in the range
and `writer.Write` returns an error, then `readAndPrint` returns that very
error; if the next read returns `io.EOF` it returns `nil`.  In each case that
read is the last one made and `Write` has accepted exactly the segments of
`pre`.  When `readAndPrint` returns, the sink holds a leading part of the
bytes passed to `Write` (the refused segment included), and when the loop
ended on a read it holds exactly the segments of `pre` provided the deferred
`Flush` returns `nil`. -/
theorem readAndPrintB_stops_on_error (c : Flags) (k : Sink) (pre post : List ReadResult)
    (r : ReadResult) (s : State) (b : BufWriter)
    (hpre : passesB c k State.init BufWriter.new pre = some (s, b)) :
    (∀ e, r.err = some e → e ≠ Err.EOF →
        (readAndPrintB c k (pre ++ r :: post)).2.2 = some e ∧
        (readAndPrintB c k (pre ++ r :: post)).1.nreads = pre.length + 1 ∧
        (readAndPrintB c k (pre ++ r :: post)).1.written = pre.map ReadResult.sub ∧
        (∃ q, (readAndPrintB c k (pre ++ r :: post)).2.1.held ++ q =
          (pre.map ReadResult.sub).flatten) ∧
        ((BufWriter.Flush k b).2 = none →
          (readAndPrintB c k (pre ++ r :: post)).2.1.held =
            (pre.map ReadResult.sub).flatten)) ∧
    (∀ e, r.err = none →
        c.startPage ≤ (advance c s).pages → (advance c s).pages ≤ c.endPage →
        (BufWriter.Write k b r.sub).2 = some e →
        (readAndPrintB c k (pre ++ r :: post)).2.2 = some e ∧
        (readAndPrintB c k (pre ++ r :: post)).1.nreads = pre.length + 1 ∧
        (readAndPrintB c k (pre ++ r :: post)).1.written = pre.map ReadResult.sub ∧
        (∃ q, (readAndPrintB c k (pre ++ r :: post)).2.1.held ++ q =
          (pre.map ReadResult.sub).flatten ++ r.sub)) ∧
    (r.err = some Err.EOF →
        (readAndPrintB c k (pre ++ r :: post)).2.2 = none ∧
        (readAndPrintB c k (pre ++ r :: post)).1.nreads = pre.length + 1 ∧
        (readAndPrintB c k (pre ++ r :: post)).1.written = pre.map ReadResult.sub ∧
        (∃ q, (readAndPrintB c k (pre ++ r :: post)).2.1.held ++ q =
          (pre.map ReadResult.sub).flatten) ∧
        ((BufWriter.Flush k b).2 = none →
          (readAndPrintB c k (pre ++ r :: post)).2.1.held =
            (pre.map ReadResult.sub).flatten)) := by
  have hc0 : BufWriter.new.Carries [] State.init.written.flatten := carries_new
  obtain ⟨hw, hn, _, hcar⟩ := passesB_carries c k pre State.init s BufWriter.new b rfl hc0 hpre
  have hw1 : s.written = pre.map ReadResult.sub := by simpa [State.init] using hw
  have hn1 : s.nreads = pre.length := by simpa [State.init] using hn
  rw [hw1] at hcar
  have hloop : loopB c k State.init BufWriter.new (pre ++ r :: post) =
      loopB c k s b (r :: post) :=
    loopB_of_passesB c k pre State.init s BufWriter.new b (r :: post) hpre
  unfold readAndPrintB
  rw [hloop]
  refine ⟨?_, ?_, ?_⟩
  · intro e he hne
    have hres : loopB c k s b (r :: post) =
        ({ s with nreads := s.nreads + 1 }, b, some e) := by
      simp only [loopB, iterationB_fail c k s b r e he hne]
    rw [hres]
    obtain ⟨hp, hall⟩ := flush_held k b _ hcar
    exact ⟨rfl, by simp [hn1], hw1, hp, hall⟩
  · intro e he hlo hhi hwr
    have hres : loopB c k s b (r :: post) =
        ({ advance c s with nreads := s.nreads + 1 }, (BufWriter.Write k b r.sub).1,
          some e) := by
      simp only [loopB, iterationB_ok c k s b r he, if_pos (And.intro hlo hhi), hwr]
    rw [hres]
    obtain ⟨hp, _⟩ := flush_held k _ _ (write_carries k b r.sub _ hcar)
    exact ⟨rfl, by simp [hn1], by simp [(advance_written c s).1, hw1], hp⟩
  · intro he
    have hres : loopB c k s b (r :: post) = ({ s with nreads := s.nreads + 1 }, b, none) := by
      simp only [loopB, iterationB_eof c k s b r he]
    rw [hres]
    obtain ⟨hp, hall⟩ := flush_held k b _ hcar
    exact ⟨rfl, by simp [hn1], hw1, hp, hall⟩

/-! ## A sink that takes every write -/

theorem flush_okSink (b : BufWriter) (he : b.err = none) :
    (BufWriter.Flush okSink b).2 = none := by
  unfold BufWriter.Flush
  have h1 : ¬ (b.err ≠ none) := by simpa using he
  rw [if_neg h1]
  by_cases h2 : b.buf = []
  · rw [if_pos h2]
  · rw [if_neg h2]
    rfl

theorem writeRound_okSink (b : BufWriter) (p : List Byte) (he : b.err = none) :
    (BufWriter.writeRound okSink b p).1.err = none := by
  unfold BufWriter.writeRound
  by_cases h2 : b.buf = []
  · rw [if_pos h2]
    exact he
  · rw [if_neg h2]
    have hf := flush_ret okSink { b with buf := b.buf ++ p.take (defaultBufSize - b.buf.length) }
    rw [← hf.1]
    exact flush_okSink _ he

theorem writeLoop_okSink :
    ∀ (fuel : Nat) (b : BufWriter) (p : List Byte), b.err = none →
      (BufWriter.writeLoop okSink fuel b p).1.err = none := by
  intro fuel
  induction fuel with
  | zero =>
    intro b p he
    exact he
  | succ n ih =>
    intro b p he
    unfold BufWriter.writeLoop
    split_ifs
    · exact ih _ _ (writeRound_okSink b p he)
    · exact he

theorem write_okSink (b : BufWriter) (p : List Byte) (he : b.err = none) :
    (BufWriter.Write okSink b p).2 = none := by
  have h := writeLoop_okSink 2 b p he
  unfold BufWriter.Write
  have h1 : ¬ ((BufWriter.writeLoop okSink 2 b p).1.err ≠ none) := by simpa using h
  rw [if_neg h1]

theorem iteration_stop_written (c : Flags) (w : Writer) (s s1 : State) (r : ReadResult)
    (ret : Option Err) (h : iteration c w s r = Step.stop s1 ret) :
    s1.written = s.written := by
  cases he : r.err with
  | none =>
    rw [iteration_ok c w s r he] at h
    split_ifs at h
    · cases hw : w s.written r.sub with
      | none =>
        rw [hw] at h
        cases h
      | some e =>
        rw [hw] at h
        simp only [Step.stop.injEq] at h
        rw [← h.1]
        exact (advance_written c s).1
    · simp only [Step.stop.injEq] at h
      rw [← h.1]
      exact (advance_written c s).1
  | some e =>
    by_cases heof : e = Err.EOF
    · rw [iteration_eof c w s r (by rw [he, heof])] at h
      simp only [Step.stop.injEq] at h
      rw [← h.1]
    · rw [iteration_fail c w s r e he heof] at h
      simp only [Step.stop.injEq] at h
      rw [← h.1]

/-- Over a sink that takes every write, a pass with the buffered writer is
the pass with a `Write` that never fails. -/
theorem iterationB_okSink (c : Flags) (s : State) (b : BufWriter) (r : ReadResult)
    (hb : b.err = none) :
    iterationB c okSink s b r =
      match iteration c okWriter s r with
      | Step.next s1 => BStep.next s1 (BufWriter.Write okSink b r.sub).1
      | Step.stop s1 ret => BStep.stop s1 b ret := by
  cases he : r.err with
  | none =>
    rw [iterationB_ok c okSink s b r he, iteration_ok c okWriter s r he]
    by_cases hin : c.startPage ≤ (advance c s).pages ∧ (advance c s).pages ≤ c.endPage
    · rw [if_pos hin, if_pos hin, write_okSink b r.sub hb]
      rfl
    · rw [if_neg hin, if_neg hin]
  | some e =>
    by_cases heof : e = Err.EOF
    · rw [iterationB_eof c okSink s b r (by rw [he, heof]),
        iteration_eof c okWriter s r (by rw [he, heof])]
    · rw [iterationB_fail c okSink s b r e he heof, iteration_fail c okWriter s r e he heof]

theorem loopB_okSink (c : Flags) :
    ∀ (src : List ReadResult) (s : State) (b : BufWriter),
      b.err = none → b.Carries [] s.written.flatten →
      ∃ d, loopB c okSink s b src =
          ((loop c okWriter s src).1, d, (loop c okWriter s src).2) ∧
        d.err = none ∧ d.Carries [] (loop c okWriter s src).1.written.flatten := by
  intro src
  induction src with
  | nil =>
    intro s b hb hc
    refine ⟨b, ?_, hb, ?_⟩
    · simp only [loopB, loop, iterationB_eof c okSink s b ⟨[], some Err.EOF⟩ rfl,
        iteration_eof c okWriter s ⟨[], some Err.EOF⟩ rfl]
    · simp only [loop, iteration_eof c okWriter s ⟨[], some Err.EOF⟩ rfl]
      exact hc
  | cons r rs ih =>
    intro s b hb hc
    simp only [loopB, loop, iterationB_okSink c s b r hb]
    cases hit : iteration c okWriter s r with
    | next s1 =>
      have hw := (iteration_next c okWriter s s1 r hit).2.1
      have he1 : (BufWriter.Write okSink b r.sub).1.err = none := by
        rw [← write_ret]
        exact write_okSink b r.sub hb
      have hc1 : (BufWriter.Write okSink b r.sub).1.Carries [] s1.written.flatten := by
        rw [hw]
        simpa using write_carries okSink b r.sub _ hc
      exact ih s1 _ he1 hc1
    | stop s1 ret =>
      have hw := iteration_stop_written c okWriter s s1 r ret hit
      refine ⟨b, rfl, hb, ?_⟩
      show b.Carries [] s1.written.flatten
      rw [hw]
      exact hc

/-- Over a sink that takes every write, `readAndPrint` with the buffered
writer of the code ends in the loop state and with the return value of the
loop whose `Write` never fails, and once the deferred `Flush` has run the sink
holds exactly the segments that `Write` accepted. -/
theorem readAndPrintB_okSink (c : Flags) (src : List ReadResult) :
    (readAndPrintB c okSink src).1 = (readAndPrint c okWriter src).1 ∧
      (readAndPrintB c okSink src).2.2 = (readAndPrint c okWriter src).2 ∧
      (readAndPrintB c okSink src).2.1.held =
        (readAndPrint c okWriter src).1.written.flatten := by
  obtain ⟨d, hl, hd, hc⟩ := loopB_okSink c src State.init BufWriter.new rfl carries_new
  unfold readAndPrintB readAndPrint
  rw [hl]
  exact ⟨rfl, rfl, (flush_held okSink d _ hc).2 (flush_okSink d hd)⟩

/-! ## A sink that fails -/

theorem longLine_length : longLine.length = 4096 := by
  rw [longLine, List.length_append, List.length_replicate]
  rfl

/-- Over a sink that takes nothing, a `Write` that does not fit in the room
left of a buffer in use fails, and the sink still holds what it held. -/
theorem write_fullSink_overflow (b : BufWriter) (p : List Byte) (he : b.err = none)
    (hb : b.buf ≠ []) (hp : p.length > defaultBufSize - b.buf.length) :
    (BufWriter.Write fullSink b p).2 = some (Err.other "no space left on device") ∧
      (BufWriter.Write fullSink b p).1.held = b.held := by
  have hc : p.length > defaultBufSize - b.buf.length ∧ b.err = none := ⟨hp, he⟩
  have hne : b.buf ++ p.take (defaultBufSize - b.buf.length) ≠ [] := by
    intro h
    exact hb (List.append_eq_nil.1 h).1
  have h1 : ¬ (({ b with buf := b.buf ++ p.take (defaultBufSize - b.buf.length) } :
      BufWriter).err ≠ none) := by
    simpa using he
  have hround : BufWriter.writeRound fullSink b p =
      (⟨some (Err.other "no space left on device"),
          b.buf ++ p.take (defaultBufSize - b.buf.length), b.held⟩,
        p.drop (defaultBufSize - b.buf.length)) := by
    unfold BufWriter.writeRound
    rw [if_neg hb]
    unfold BufWriter.Flush
    rw [if_neg h1, if_neg hne]
    simp [fullSink]
  have hloop : BufWriter.writeLoop fullSink 2 b p =
      (⟨some (Err.other "no space left on device"),
          b.buf ++ p.take (defaultBufSize - b.buf.length), b.held⟩,
        p.drop (defaultBufSize - b.buf.length)) := by
    simp only [BufWriter.writeLoop, if_pos hc, hround]
    simp
  unfold BufWriter.Write
  rw [hloop]
  simp

/-- When `Write` refuses a segment, `readAndPrint` returns its error, and the
deferred `Flush`, finding the error stuck, sends nothing more to the sink. -/
theorem readAndPrintB_refused (c : Flags) (k : Sink) (pre post : List ReadResult)
    (r : ReadResult) (s : State) (b : BufWriter) (e : Err)
    (hpre : passesB c k State.init BufWriter.new pre = some (s, b))
    (he : r.err = none) (hlo : c.startPage ≤ (advance c s).pages)
    (hhi : (advance c s).pages ≤ c.endPage)
    (hwr : (BufWriter.Write k b r.sub).2 = some e) :
    readAndPrintB c k (pre ++ r :: post) =
      ({ advance c s with nreads := s.nreads + 1 }, (BufWriter.Write k b r.sub).1,
        some e) := by
  have hloop : loopB c k State.init BufWriter.new (pre ++ r :: post) =
      loopB c k s b (r :: post) :=
    loopB_of_passesB c k pre State.init s BufWriter.new b (r :: post) hpre
  have hres : loopB c k s b (r :: post) =
      ({ advance c s with nreads := s.nreads + 1 }, (BufWriter.Write k b r.sub).1,
        some e) := by
    simp only [loopB, iterationB_ok c k s b r he, if_pos (And.intro hlo hhi), hwr]
  have herr : (BufWriter.Write k b r.sub).1.err ≠ none := by
    rw [← write_ret, hwr]
    simp
  have hflush : BufWriter.Flush k (BufWriter.Write k b r.sub).1 =
      ((BufWriter.Write k b r.sub).1, (BufWriter.Write k b r.sub).1.err) := by
    unfold BufWriter.Flush
    rw [if_pos herr]
  unfold readAndPrintB
  rw [hloop, hres]
  simp only [hflush]

/-- C9, the claim as stated fails on the buffered writer of the code, over a
sink that fails on every write.  On the line `a` followed by the end of the
stream, `Write` accepts the line into the buffer, the deferred `Flush` meets
the error of the sink, and `readAndPrint` returns `nil` with nothing in the
sink.  On the line `a` followed by a line of 4096 bytes, the second `Write`
returns the error and `readAndPrint` returns it, but the sink does not hold the
line `a` that `Write` had accepted. -/
theorem sink_error_not_returned :
    (readAndPrintB ⟨1, 1, 72, false⟩ fullSink [⟨[97, 10], none⟩, ⟨[], some Err.EOF⟩] =
        (⟨1, 1, [[97, 10]], 2⟩,
          ⟨some (Err.other "no space left on device"), [97, 10], []⟩, none) ∧
      (BufWriter.Flush fullSink ⟨none, [97, 10], []⟩).2 =
        some (Err.other "no space left on device")) ∧
    ((readAndPrintB ⟨1, 1, 72, false⟩ fullSink
        ([⟨[97, 10], none⟩] ++ ⟨longLine, none⟩ :: [⟨[], some Err.EOF⟩])).2.2 =
        some (Err.other "no space left on device") ∧
      (readAndPrintB ⟨1, 1, 72, false⟩ fullSink
        ([⟨[97, 10], none⟩] ++ ⟨longLine, none⟩ :: [⟨[], some Err.EOF⟩])).1.written =
        [[97, 10]] ∧
      (readAndPrintB ⟨1, 1, 72, false⟩ fullSink
        ([⟨[97, 10], none⟩] ++ ⟨longLine, none⟩ :: [⟨[], some Err.EOF⟩])).2.1.held = []) := by
  refine ⟨⟨by decide, by decide⟩, ?_⟩
  obtain ⟨hwr, hheld⟩ := write_fullSink_overflow ⟨none, [97, 10], []⟩ longLine rfl
    (by decide) (by rw [longLine_length]; decide)
  have h := readAndPrintB_refused ⟨1, 1, 72, false⟩ fullSink [⟨[97, 10], none⟩]
    [⟨[], some Err.EOF⟩] ⟨longLine, none⟩ ⟨1, 1, [[97, 10]], 1⟩ ⟨none, [97, 10], []⟩
    (Err.other "no space left on device") (by decide) rfl (by decide) (by decide) hwr
  rw [h]
  refine ⟨rfl, (advance_written _ _).1, ?_⟩
  dsimp only
  rw [hheld]

/-- Two runs over the line `a`, then a second read.  Over a sink that takes
every write the second read fails: the error comes back and the sink holds the
line `a`.  Over a sink that fails the second read returns a line of 4096 bytes
that `Write` refuses: the error of `Write` comes back. -/
theorem readAndPrintB_stops_on_error_witness :
    (passesB ⟨1, 1, 72, false⟩ okSink State.init BufWriter.new [⟨[97, 10], none⟩] =
        some (⟨1, 1, [[97, 10]], 1⟩, ⟨none, [97, 10], []⟩) ∧
      (readAndPrintB ⟨1, 1, 72, false⟩ okSink
          ([⟨[97, 10], none⟩] ++ ⟨[98], some (Err.other "read failed")⟩ ::
            [⟨[99, 10], none⟩])).2.2 = some (Err.other "read failed") ∧
      (readAndPrintB ⟨1, 1, 72, false⟩ okSink
          ([⟨[97, 10], none⟩] ++ ⟨[98], some (Err.other "read failed")⟩ ::
            [⟨[99, 10], none⟩])).2.1.held =
        (([⟨[97, 10], none⟩] : List ReadResult).map ReadResult.sub).flatten) ∧
    (passesB ⟨1, 1, 72, false⟩ fullSink State.init BufWriter.new [⟨[97, 10], none⟩] =
        some (⟨1, 1, [[97, 10]], 1⟩, ⟨none, [97, 10], []⟩) ∧
      (readAndPrintB ⟨1, 1, 72, false⟩ fullSink
          ([⟨[97, 10], none⟩] ++ ⟨longLine, none⟩ :: [⟨[], some Err.EOF⟩])).2.2 =
        some (Err.other "no space left on device")) :=
  ⟨⟨by decide,
    ((readAndPrintB_stops_on_error ⟨1, 1, 72, false⟩ okSink [⟨[97, 10], none⟩]
      [⟨[99, 10], none⟩] ⟨[98], some (Err.other "read failed")⟩ ⟨1, 1, [[97, 10]], 1⟩
      ⟨none, [97, 10], []⟩ (by decide)).1 (Err.other "read failed") rfl (by decide)).1,
    ((readAndPrintB_stops_on_error ⟨1, 1, 72, false⟩ okSink [⟨[97, 10], none⟩]
      [⟨[99, 10], none⟩] ⟨[98], some (Err.other "read failed")⟩ ⟨1, 1, [[97, 10]], 1⟩
      ⟨none, [97, 10], []⟩ (by decide)).1 (Err.other "read failed") rfl
        (by decide)).2.2.2.2 (by decide)⟩,
   ⟨by decide,
    ((readAndPrintB_stops_on_error ⟨1, 1, 72, false⟩ fullSink [⟨[97, 10], none⟩]
      [⟨[], some Err.EOF⟩] ⟨longLine, none⟩ ⟨1, 1, [[97, 10]], 1⟩
      ⟨none, [97, 10], []⟩ (by decide)).2.1 (Err.other "no space left on device") rfl
        (by decide) (by decide)
        (write_fullSink_overflow ⟨none, [97, 10], []⟩ longLine rfl (by decide)
          (by rw [longLine_length]; decide)).1).1⟩⟩

end Selpg
